import Mathlib

/-!
Verification of the tessellation core of `src/tessellation/dual_marching_cubes.rs`
(a Dual Marching Cubes surface extractor with QEF vertex placement and adaptive
octree simplification).

The Rust source is shallowly embedded:
* `f64` values become exact rationals `ℚ` (floating-point rounding is idealised away);
* 3-vectors (`Point`, `Vector`) become the structure `Vec3`, grid indices
  (`[usize; 3]`) become `Idx3`;
* hash maps become association lists, hash sets become `Finset ℕ`
  (the source's hash iteration order is unspecified; where it leaks into a result we
  fix a canonical order and say so next to the definition);
* the external collaborators (the implicit object, the `CELL_CONFIGS` table and the
  QEF solver) are parameters of the context structure `Ctx`;
* Rust panics/debug assertions are not modelled as values: the corresponding
  conditions appear as hypotheses of the theorems, and the definitions use a
  harmless default in the unreachable branch (noted locally each time);
* potentially non-terminating recursion (`find_zero`, `sample_value_grid`) takes an
  explicit fuel argument; fuel exhaustion stands for divergence.
-/

/-! ## Basic data model -/

/-- A 3-vector of rationals, standing for the source's `Point`/`Vector` of `Float`. -/
structure Vec3 where
  x : ℚ
  y : ℚ
  z : ℚ
deriving DecidableEq, Repr

instance : Add Vec3 := ⟨fun a b => ⟨a.x + b.x, a.y + b.y, a.z + b.z⟩⟩

instance : Sub Vec3 := ⟨fun a b => ⟨a.x - b.x, a.y - b.y, a.z - b.z⟩⟩

instance : SMul ℚ Vec3 := ⟨fun c v => ⟨c * v.x, c * v.y, c * v.z⟩⟩

/-- Component access, the source's `p[i]`. -/
def Vec3.get (v : Vec3) : Fin 3 → ℚ
  | 0 => v.x
  | 1 => v.y
  | 2 => v.z

/-- Update one component, used for `adjacent_pos[edge as usize] += res`. -/
def Vec3.set (v : Vec3) : Fin 3 → ℚ → Vec3
  | 0, q => ⟨q, v.y, v.z⟩
  | 1, q => ⟨v.x, q, v.z⟩
  | 2, q => ⟨v.x, v.y, q⟩

/-- Minimum component, cgmath's `Array::min` used in `find_zero`. -/
def Vec3.vmin (v : Vec3) : ℚ := min v.x (min v.y v.z)

/-- Maximum component, cgmath's `Array::max` used in `find_zero`. -/
def Vec3.vmax (v : Vec3) : ℚ := max v.x (max v.y v.z)

/-- A grid index, the source's `Index = [usize; 3]`. -/
structure Idx3 where
  x : ℕ
  y : ℕ
  z : ℕ
deriving DecidableEq, Repr

def Idx3.get (i : Idx3) : Fin 3 → ℕ
  | 0 => i.x
  | 1 => i.y
  | 2 => i.z

/-- Increment one component (`idx[d] += 1`). -/
def Idx3.bump (i : Idx3) : Fin 3 → Idx3
  | 0 => ⟨i.x + 1, i.y, i.z⟩
  | 1 => ⟨i.x, i.y + 1, i.z⟩
  | 2 => ⟨i.x, i.y, i.z + 1⟩

/-- Componentwise addition, `vertex_index::offset`. -/
def Idx3.offset (a b : Idx3) : Idx3 := ⟨a.x + b.x, a.y + b.y, a.z + b.z⟩

/-- Componentwise subtraction, `vertex_index::neg_offset`.  The source subtracts
`usize`s; underflow would panic there, while `ℕ` subtraction truncates.  All uses in
the claims are guarded by the source's `debug_assert!(edge_index.index ... > 0)`. -/
def Idx3.neg_offset (a b : Idx3) : Idx3 := ⟨a.x - b.x, a.y - b.y, a.z - b.z⟩

/-- `half_index` from the source: componentwise division by two. -/
def half_index (input : Idx3) : Idx3 := ⟨input.x / 2, input.y / 2, input.z / 2⟩

/-- The twelve cell edges `A`..`L`. -/
inductive Edge where
  | A | B | C | D | E | F | G | H | I | J | K | L
deriving DecidableEq, Repr

def Edge.toNat : Edge → ℕ
  | .A => 0 | .B => 1 | .C => 2 | .D => 3 | .E => 4 | .F => 5
  | .G => 6 | .H => 7 | .I => 8 | .J => 9 | .K => 10 | .L => 11

/-- `Edge::from_usize`; the source panics for arguments ≥ 12, we return `A`
as a default in that unreachable branch. -/
def Edge.from_usize : ℕ → Edge
  | 0 => .A | 1 => .B | 2 => .C | 3 => .D | 4 => .E | 5 => .F
  | 6 => .G | 7 => .H | 8 => .I | 9 => .J | 10 => .K | 11 => .L
  | _ => .A

/-- `Edge::base`: the canonical representative `A`/`B`/`C` of an edge, via `% 3`. -/
def Edge.base (e : Edge) : Edge := Edge.from_usize (e.toNat % 3)

/-- The `EDGE_OFFSET` table of the source (cell offsets of the twelve edges). -/
def EDGE_OFFSET : Edge → Idx3
  | .A => ⟨0, 0, 0⟩ | .B => ⟨0, 0, 0⟩ | .C => ⟨0, 0, 0⟩
  | .D => ⟨0, 1, 0⟩ | .E => ⟨1, 0, 0⟩ | .F => ⟨1, 0, 0⟩
  | .G => ⟨0, 0, 1⟩ | .H => ⟨0, 0, 1⟩ | .I => ⟨0, 1, 0⟩
  | .J => ⟨0, 1, 1⟩ | .K => ⟨1, 0, 1⟩ | .L => ⟨1, 1, 0⟩

/-- The `QUADS` table: for each of the base edges `A`, `B`, `C` (indices 0-2) the
four edges enumerating the four cells meeting that edge, in winding order.  The
source indexes a length-3 array; for other edges we return `[]` (the source's
callers assert the edge is a base edge). -/
def QUADS : Edge → List Edge
  | .A => [.A, .G, .J, .D]
  | .B => [.B, .E, .K, .H]
  | .C => [.C, .I, .L, .F]
  | _ => []

/-- A tangent plane at an edge crossing: a point and the field normal there. -/
structure Plane where
  p : Vec3
  n : Vec3
deriving DecidableEq, Repr

/-- `EdgeIndex`: an edge of the grid, named by a cell-local edge and the cell. -/
structure EdgeIndex where
  edge : Edge
  index : Idx3
deriving DecidableEq, Repr

/-- `EdgeIndex::base`: the canonical form of a grid edge. -/
def EdgeIndex.base (ei : EdgeIndex) : EdgeIndex :=
  { edge := ei.edge.base, index := ei.index.offset (EDGE_OFFSET ei.edge) }

/-- The sparse value grid, `HashMap<Index, Float>`, as an association list
(first hit wins on lookup). -/
abbrev VGrid := List (Idx3 × ℚ)

/-- Lookup in the value grid (`HashMap::get`). -/
def VGrid.get (vg : VGrid) (i : Idx3) : Option ℚ :=
  (vg.find? (fun e => e.1 = i)).map (·.2)

/-- The edge grid, `HashMap<EdgeIndex, Plane>`, as an association list. -/
abbrev EGrid := List (EdgeIndex × Plane)

/-- Edge sets and cell corner patterns: the source's `BitSet`, as a mask `ℕ`. -/
abbrev BSet := ℕ

/-- `BitSet::get`. -/
def BSet.get (s : BSet) (i : ℕ) : Bool := s.testBit i

/-- `BitSet::set`. -/
def BSet.set (s : BSet) (i : ℕ) : BSet := s ||| (1 <<< i)

/-- `BitSet::intersect`. -/
def BSet.intersect (s t : BSet) : BSet := s &&& t

/-- `BitSet::empty`. -/
def BSet.empty (s : BSet) : Bool := s = 0

/-- `BitSet::into_iter` restricted to the twelve edge bits, ascending.  (The source
iterates set bits in ascending order as well.) -/
def BSet.toEdgeList (s : BSet) : List ℕ := (List.range 12).filter (fun i => s.testBit i)

/-- The external context of the tessellator: the implicit object (`approx_value`
and `normal`), the resolution, the grid origin, the read-only `CELL_CONFIGS` table
(an edge-set list per 8-bit corner pattern) and the external QEF solver (the
minimiser it returns for a list of tangent planes).  `sqrt3` stands for the
irrational factor `√3` of the sub-cube spatial diagonal; the claims proved below
hold for every value of it, so passing it as data loses nothing. -/
structure Ctx where
  objVal : Vec3 → ℚ → ℚ
  objNormal : Vec3 → Vec3
  res : ℚ
  origin : Vec3
  cellConfigs : ℕ → List BSet
  qefSolve : List Plane → Vec3
  sqrt3 : ℚ

/-- Spatial position of a grid corner: `origin + res * index` (componentwise). -/
def gridPos (c : Ctx) (i : Idx3) : Vec3 :=
  c.origin + c.res • (⟨(i.x : ℚ), (i.y : ℚ), (i.z : ℚ)⟩ : Vec3)

/-! ## `pow2roundup` (claim C10) -/

/-- `pow2roundup` from the source: or-cascade rounding up to the next power of two.
The source operates on a 64-bit `usize`; the initial `x -= 1` and the final `+ 1`
are wrapped modulo `2 ^ 64` to mirror that exactly (the shifts and ors cannot
overflow). -/
def pow2roundup (x : ℕ) : ℕ :=
  let x := (x + (2 ^ 64 - 1)) % 2 ^ 64
  let x := x ||| x >>> 1
  let x := x ||| x >>> 2
  let x := x ||| x >>> 4
  let x := x ||| x >>> 8
  let x := x ||| x >>> 16
  let x := x ||| x >>> 32
  (x + 1) % 2 ^ 64

/-! ## Theorems -/

/-- One or-cascade step doubles the window of bit positions covered. -/
theorem orShift_window {z w m : ℕ}
    (hw : ∀ i, w.testBit i = true ↔ ∃ s < m, z.testBit (i + s) = true) :
    ∀ i, (w ||| w >>> m).testBit i = true ↔ ∃ s < 2 * m, z.testBit (i + s) = true := by
  intro i
  rw [Nat.testBit_or, Bool.or_eq_true, Nat.testBit_shiftRight, hw i, hw (m + i)]
  constructor
  · rintro (⟨s, hs, hbit⟩ | ⟨s, hs, hbit⟩)
    · exact ⟨s, by omega, hbit⟩
    · exact ⟨m + s, by omega, by rwa [show i + (m + s) = m + i + s by omega]⟩
  · rintro ⟨s, hs, hbit⟩
    by_cases hsm : s < m
    · exact Or.inl ⟨s, hsm, hbit⟩
    · exact Or.inr ⟨s - m, by omega, by rwa [show m + i + (s - m) = i + s by omega]⟩

/-- The six-step or-cascade on `y < 2 ^ 63` produces `2 ^ Nat.size y - 1`. -/
theorem orCascade_eq {y : ℕ} (hy : y < 2 ^ 63) :
    (let x := y ||| y >>> 1
     let x := x ||| x >>> 2
     let x := x ||| x >>> 4
     let x := x ||| x >>> 8
     let x := x ||| x >>> 16
     let x := x ||| x >>> 32
     x) = 2 ^ Nat.size y - 1 := by
  have h0 : ∀ i, y.testBit i = true ↔ ∃ s < 1, y.testBit (i + s) = true := by
    intro i
    constructor
    · intro h; exact ⟨0, by omega, by simpa using h⟩
    · rintro ⟨s, hs, h⟩; interval_cases s; simpa using h
  have h1 := orShift_window h0
  have h2 := orShift_window h1
  have h3 := orShift_window h2
  have h4 := orShift_window h3
  have h5 := orShift_window h4
  have h6 := orShift_window h5
  simp only [show (2:ℕ) * 1 = 2 from rfl] at h1
  refine Nat.eq_of_testBit_eq fun i => ?_
  rw [Nat.testBit_two_pow_sub_one]
  have hsize : Nat.size y ≤ 63 := Nat.size_le.2 hy
  by_cases hi : i < Nat.size y
  · have hy0 : 0 < y := by
      rcases Nat.eq_zero_or_pos y with h | h
      · subst h; simp [Nat.size_zero] at hi
      · exact h
    -- the most significant bit of y sits at position `Nat.size y - 1`
    have hmsb : y.testBit (Nat.size y - 1) = true := by
      have hlow : 2 ^ (Nat.size y - 1) ≤ y := by
        have := Nat.lt_size.1 (show Nat.size y - 1 < Nat.size y by
          have := Nat.size_pos.2 hy0; omega)
        exact this
      have hhigh : y < 2 ^ (Nat.size y - 1) * 2 := by
        have := Nat.lt_size_self y
        have hpow : (2:ℕ) ^ (Nat.size y) = 2 ^ (Nat.size y - 1) * 2 := by
          have := Nat.size_pos.2 hy0
          rw [← pow_succ]
          congr 1
          omega
        omega
      have hdiv : y / 2 ^ (Nat.size y - 1) = 1 := by
        apply Nat.div_eq_of_lt_le (by omega) (by omega)
      rw [Nat.testBit_to_div_mod, hdiv]
      decide
    have : ∃ s < 64, y.testBit (i + s) = true := by
      refine ⟨Nat.size y - 1 - i, by omega, ?_⟩
      rw [show i + (Nat.size y - 1 - i) = Nat.size y - 1 by omega]
      exact hmsb
    simp only [(h6 i).2 this]
    simp [hi]
  · have : ¬ ∃ s < 64, y.testBit (i + s) = true := by
      rintro ⟨s, _, hbit⟩
      have : y.testBit (i + s) = false :=
        Nat.testBit_lt_two_pow (lt_of_lt_of_le (Nat.lt_size_self y)
          (Nat.pow_le_pow_right (by omega) (by omega)))
      rw [this] at hbit
      exact Bool.false_ne_true hbit
    have hfalse : (let x := y ||| y >>> 1
     let x := x ||| x >>> 2
     let x := x ||| x >>> 4
     let x := x ||| x >>> 8
     let x := x ||| x >>> 16
     let x := x ||| x >>> 32
     x).testBit i = false := by
      by_contra hcon
      simp only [Bool.not_eq_false] at hcon
      exact this ((h6 i).1 hcon)
    have hnot : ¬ i < Nat.size y := by omega
    simp only [hfalse]
    simp [hnot]

/-- C10: for every `usize` `x` with `1 ≤ x ≤ 2 ^ 63`, `pow2roundup x` returns the
smallest power of two greater than or equal to `x`: it dominates `x`, it equals
`2 ^ ⌈log₂ x⌉`, and it is below every power of two that dominates `x` (in
particular it is the identity on powers of two). -/
theorem pow2roundup_correct (x : ℕ) (hx1 : 1 ≤ x) (hx2 : x ≤ 2 ^ 63) :
    x ≤ pow2roundup x ∧ pow2roundup x = 2 ^ Nat.clog 2 x ∧
      ∀ m, x ≤ 2 ^ m → pow2roundup x ≤ 2 ^ m := by
  have hsub : (x + (2 ^ 64 - 1)) % 2 ^ 64 = x - 1 := by
    have h1 : x + (2 ^ 64 - 1) = (x - 1) + 1 * 2 ^ 64 := by omega
    rw [h1, Nat.add_mul_mod_self_right]
    exact Nat.mod_eq_of_lt (by omega)
  have hy : x - 1 < 2 ^ 63 := by omega
  have hcas := orCascade_eq hy
  have hK : Nat.size (x - 1) ≤ 63 := Nat.size_le.2 hy
  have hval : pow2roundup x = 2 ^ Nat.size (x - 1) := by
    unfold pow2roundup
    rw [hsub]
    simp only at hcas ⊢
    rw [hcas]
    have hpos : 0 < 2 ^ Nat.size (x - 1) := Nat.pos_pow_of_pos _ (by omega)
    rw [Nat.sub_add_cancel hpos]
    exact Nat.mod_eq_of_lt (lt_of_le_of_lt (Nat.pow_le_pow_right (by omega) hK) (by norm_num))
  have hclog : Nat.clog 2 x = Nat.size (x - 1) := by
    apply le_antisymm
    · rw [← Nat.le_pow_iff_clog_le (by omega)]
      have := Nat.lt_size_self (x - 1)
      omega
    · rw [Nat.size_le]
      have := Nat.le_pow_clog (show 1 < 2 by omega) x
      omega
  refine ⟨?_, by rw [hval, hclog], ?_⟩
  · rw [hval]
    have := Nat.lt_size_self (x - 1)
    omega
  · intro m hm
    rw [hval]
    apply Nat.pow_le_pow_right (by omega)
    rw [Nat.size_le]
    omega

/-- Witness for C10 at `x = 5`: the hypotheses hold and `pow2roundup 5 = 8 = 2 ^ 3`. -/
theorem pow2roundup_correct_witness :
    5 ≤ pow2roundup 5 ∧ pow2roundup 5 = 2 ^ Nat.clog 2 5 :=
  ⟨(pow2roundup_correct 5 (by decide) (by norm_num)).1,
   (pow2roundup_correct 5 (by decide) (by norm_num)).2.1⟩

/-! ## `find_zero` (claims C1, C2) -/

/-- `PRECISION` from the source: how accurately zero crossings are found. -/
def PRECISION : ℚ := 5 / 100

/-- Rust's `f64::signum` on the (non-NaN) values the tessellator handles:
`-1` for negatives and `+1` otherwise (`+0.0` has positive sign in Rust). -/
def rsignum (q : ℚ) : ℚ := if q < 0 then -1 else 1

/-- The ℓ∞ size `max(|min component|, max component)` that `find_zero` computes as
`(a - b).min().abs().max((a - b).max())`. -/
def linf (v : Vec3) : ℚ := max |v.vmin| v.vmax

/-- `p` lies on the closed segment from `a` to `b`. -/
def onSegment (a b p : Vec3) : Prop := ∃ t : ℚ, 0 ≤ t ∧ t ≤ 1 ∧ p = a + t • (b - a)

/-- `find_zero` from the source: bisection by linear interpolation of the zero
crossing between `a` (value `av`) and `b` (value `bv`).  The recursion of the
source has no structural measure (it terminates only for well-behaved fields), so
it takes fuel; `0` fuel stands for divergence and returns `none`.  The source's
`assert!(a != b)` and the two `debug_assert!`s equating `av`/`bv` with the field
values appear as hypotheses of the theorems instead. -/
def find_zero (c : Ctx) : ℕ → Vec3 → ℚ → Vec3 → ℚ → Option Plane
  | 0, _, _, _, _ => none
  | fuel+1, a, av, b, bv =>
    if rsignum av = rsignum bv then none
    else
      let distance := min (min (max |(a - b).vmin| (a - b).vmax) |av|) |bv|
      if distance < PRECISION * c.res then
        let result := if |bv| < |av| then b else a
        some { p := result, n := c.objNormal result }
      else
        let n := a + (|av| / |bv - av|) • (b - a)
        let nv := c.objVal n c.res
        if rsignum av ≠ rsignum nv then
          find_zero c fuel a av n nv
        else
          find_zero c fuel n nv b bv

/-! Componentwise arithmetic on `Vec3`. -/

@[simp] theorem Vec3.add_x (a b : Vec3) : (a + b).x = a.x + b.x := rfl

@[simp] theorem Vec3.add_y (a b : Vec3) : (a + b).y = a.y + b.y := rfl

@[simp] theorem Vec3.add_z (a b : Vec3) : (a + b).z = a.z + b.z := rfl

@[simp] theorem Vec3.sub_x (a b : Vec3) : (a - b).x = a.x - b.x := rfl

@[simp] theorem Vec3.sub_y (a b : Vec3) : (a - b).y = a.y - b.y := rfl

@[simp] theorem Vec3.sub_z (a b : Vec3) : (a - b).z = a.z - b.z := rfl

@[simp] theorem Vec3.smul_x (c : ℚ) (v : Vec3) : (c • v).x = c * v.x := rfl

@[simp] theorem Vec3.smul_y (c : ℚ) (v : Vec3) : (c • v).y = c * v.y := rfl

@[simp] theorem Vec3.smul_z (c : ℚ) (v : Vec3) : (c • v).z = c * v.z := rfl

@[ext] theorem Vec3.ext3 {a b : Vec3} (hx : a.x = b.x) (hy : a.y = b.y)
    (hz : a.z = b.z) : a = b := by
  cases a; cases b; simp_all

theorem linf_nonneg (v : Vec3) : 0 ≤ linf v :=
  le_trans (abs_nonneg _) (le_max_left _ _)

theorem linf_smul {t : ℚ} (ht : 0 ≤ t) (v : Vec3) : linf (t • v) = t * linf v := by
  unfold linf Vec3.vmin Vec3.vmax
  simp only [Vec3.smul_x, Vec3.smul_y, Vec3.smul_z]
  rw [← mul_min_of_nonneg _ _ ht, ← mul_min_of_nonneg _ _ ht,
      ← mul_max_of_nonneg _ _ ht, ← mul_max_of_nonneg _ _ ht,
      abs_mul, abs_of_nonneg ht, ← mul_max_of_nonneg _ _ ht]

/-- Under opposite Rust signs the values straddle zero, so `|bv - av| = |av| + |bv|`. -/
theorem abs_sub_of_sign_ne {av bv : ℚ} (h : rsignum av ≠ rsignum bv) :
    |bv - av| = |av| + |bv| := by
  unfold rsignum at h
  rcases lt_or_le av 0 with ha | ha <;> rcases lt_or_le bv 0 with hb | hb
  · simp [ha, hb] at h
  · rw [abs_of_neg ha, abs_of_nonneg hb, abs_of_nonneg (by linarith : (0:ℚ) ≤ bv - av)]
    ring
  · rw [abs_of_nonneg ha, abs_of_neg hb, abs_of_neg (by linarith : bv - av < 0)]
    ring
  · simp [not_lt.2 ha, not_lt.2 hb] at h

/-- With agreeing Rust signs `find_zero` returns nothing (any fuel). -/
theorem find_zero_sign_eq (c : Ctx) (fuel : ℕ) (a : Vec3) (av : ℚ) (b : Vec3) (bv : ℚ)
    (h : rsignum av = rsignum bv) : find_zero c fuel a av b bv = none := by
  cases fuel <;> simp [find_zero, h]

/-- When the termination bound is already met, `find_zero` returns the endpoint of
smaller absolute value together with the object's normal there. -/
theorem find_zero_immediate (c : Ctx) (fuel : ℕ) (a : Vec3) (av : ℚ) (b : Vec3) (bv : ℚ)
    (hs : rsignum av ≠ rsignum bv)
    (hd : min (min (max |(a - b).vmin| (a - b).vmax) |av|) |bv| < PRECISION * c.res) :
    find_zero c (fuel + 1) a av b bv =
      some { p := if |bv| < |av| then b else a,
             n := c.objNormal (if |bv| < |av| then b else a) } := by
  rw [find_zero]
  rw [if_neg hs]
  simp only []
  rw [if_pos hd]

/-- The interpolation parameter `|av| / |bv - av|` lies in `[0, 1]` for values of
opposite sign. -/
theorem interp_bounds {av bv : ℚ} (h : rsignum av ≠ rsignum bv) :
    0 ≤ |av| / |bv - av| ∧ |av| / |bv - av| ≤ 1 := by
  refine ⟨div_nonneg (abs_nonneg _) (abs_nonneg _), ?_⟩
  rcases eq_or_lt_of_le (abs_nonneg (bv - av)) with hz | hp
  · have : bv - av = 0 := abs_eq_zero.mp hz.symm
    have : bv = av := by linarith
    subst this
    exact absurd rfl h
  · rw [div_le_one hp, abs_sub_of_sign_ne h]
    have := abs_nonneg bv
    linarith

theorem seg_left {a b n p : Vec3} {t : ℚ} (ht0 : 0 ≤ t) (ht1 : t ≤ 1)
    (hn : n = a + t • (b - a)) (hp : onSegment a n p) : onSegment a b p := by
  obtain ⟨s, hs0, hs1, rfl⟩ := hp
  refine ⟨s * t, mul_nonneg hs0 ht0, ?_, ?_⟩
  · calc s * t ≤ 1 * t := mul_le_mul_of_nonneg_right hs1 ht0
    _ = t := one_mul t
    _ ≤ 1 := ht1
  · subst hn
    ext <;> simp <;> ring

theorem seg_right {a b n p : Vec3} {t : ℚ} (ht0 : 0 ≤ t) (ht1 : t ≤ 1)
    (hn : n = a + t • (b - a)) (hp : onSegment n b p) : onSegment a b p := by
  obtain ⟨s, hs0, hs1, rfl⟩ := hp
  refine ⟨t + s * (1 - t), by nlinarith, by nlinarith, ?_⟩
  subst hn
  ext <;> simp <;> ring

/-- Whatever `find_zero` returns lies on the closed segment `[a, b]`, and its normal
is the object's normal queried at the returned point. -/
theorem find_zero_some_seg (c : Ctx) :
    ∀ fuel a av b bv pl, find_zero c fuel a av b bv = some pl →
      onSegment a b pl.p ∧ pl.n = c.objNormal pl.p := by
  intro fuel
  induction fuel with
  | zero => intro a av b bv pl h; simp [find_zero] at h
  | succ n ih =>
    intro a av b bv pl h
    rw [find_zero] at h
    by_cases hs : rsignum av = rsignum bv
    · rw [if_pos hs] at h; exact absurd h (by simp)
    · rw [if_neg hs] at h
      simp only [] at h
      by_cases hd : min (min (max |(a - b).vmin| (a - b).vmax) |av|) |bv| < PRECISION * c.res
      · rw [if_pos hd] at h
        obtain rfl := (Option.some.injEq _ _).mp h
        refine ⟨?_, rfl⟩
        by_cases hba : |bv| < |av|
        · exact ⟨1, by norm_num, by norm_num, by simp [hba]; ext <;> simp⟩
        · exact ⟨0, le_refl 0, by norm_num, by simp [hba]; ext <;> simp⟩
      · rw [if_neg hd] at h
        obtain ⟨ht0, ht1⟩ := interp_bounds hs
        by_cases hn : rsignum av ≠ rsignum (c.objVal (a + (|av| / |bv - av|) • (b - a)) c.res)
        · rw [if_pos hn] at h
          obtain ⟨hseg, hnrm⟩ := ih _ _ _ _ _ h
          exact ⟨seg_left ht0 ht1 rfl hseg, hnrm⟩
        · rw [if_neg hn] at h
          obtain ⟨hseg, hnrm⟩ := ih _ _ _ _ _ h
          exact ⟨seg_right ht0 ht1 rfl hseg, hnrm⟩

/-- Lipschitz termination of `find_zero`: for a field that is 1-Lipschitz in the
ℓ∞ distance (the precondition §6 of the object interface), each recursion step
shrinks the span of the bracketing segment by at least `PRECISION * res`, so
fuel beyond `span / (PRECISION * res)` suffices for a result. -/
theorem find_zero_terminates (c : Ctx) (hres : 0 < c.res)
    (hLip : ∀ p q : Vec3, |c.objVal p c.res - c.objVal q c.res| ≤ linf (p - q)) :
    ∀ (fuel : ℕ) (a : Vec3) av (b : Vec3) bv, av = c.objVal a c.res →
      bv = c.objVal b c.res →
      rsignum av ≠ rsignum bv → linf (a - b) < PRECISION * c.res * (fuel : ℚ) →
      (find_zero c fuel a av b bv).isSome := by
  intro fuel
  induction fuel with
  | zero =>
    intro a av b bv _ _ _ hlt
    have := linf_nonneg (a - b)
    simp only [Nat.cast_zero, mul_zero] at hlt
    linarith
  | succ n ih =>
    intro a av b bv hav hbv hs hlt
    rw [find_zero, if_neg hs]
    simp only []
    by_cases hd : min (min (max |(a - b).vmin| (a - b).vmax) |av|) |bv| < PRECISION * c.res
    · rw [if_pos hd]; rfl
    · rw [if_neg hd]
      push_neg at hd
      have hSd : PRECISION * c.res ≤ max |(a - b).vmin| (a - b).vmax :=
        le_trans hd (le_trans (min_le_left _ _) (min_le_left _ _))
      have hav' : PRECISION * c.res ≤ |av| :=
        le_trans hd (le_trans (min_le_left _ _) (min_le_right _ _))
      have hbv' : PRECISION * c.res ≤ |bv| := le_trans hd (min_le_right _ _)
      have hSlinf : max |(a - b).vmin| (a - b).vmax = linf (a - b) := rfl
      set S := linf (a - b) with hS
      set D := |av| + |bv| with hD
      have hDpos : 0 < D := by
        have := abs_nonneg av
        have hPr : 0 < PRECISION * c.res := by
          have : (0:ℚ) < PRECISION := by norm_num [PRECISION]
          positivity
        rw [hD]; linarith
      have hDS : D ≤ S := by
        have := hLip a b
        rw [← hav, ← hbv] at this
        have habs : |av - bv| = |bv - av| := abs_sub_comm av bv
        rw [habs, abs_sub_of_sign_ne hs] at this
        exact this
      have hden : |bv - av| = D := by rw [abs_sub_of_sign_ne hs, hD]
      set t := |av| / |bv - av| with ht
      have ht0 : 0 ≤ t := div_nonneg (abs_nonneg _) (abs_nonneg _)
      have ht1 : t ≤ 1 := (interp_bounds hs).2
      have htD : t = |av| / D := by rw [ht, hden]
      have hPr : 0 < PRECISION * c.res := by
        have : (0:ℚ) < PRECISION := by norm_num [PRECISION]
        positivity
      have hD0 : D ≠ 0 := ne_of_gt hDpos
      have h1t : 1 - t = |bv| / D := by
        rw [htD]
        field_simp
        linarith
      have hsplit : t * S + (1 - t) * S = S := by ring
      have hlt' : S - PRECISION * c.res < PRECISION * c.res * (n : ℚ) := by
        push_cast at hlt
        linarith
      by_cases hn : rsignum av ≠ rsignum (c.objVal (a + t • (b - a)) c.res)
      · rw [if_pos hn]
        apply ih a av (a + t • (b - a)) _ hav rfl hn
        have hsub : a - (a + t • (b - a)) = t • (a - b) := by ext <;> simp <;> ring
        rw [hsub, linf_smul ht0, ← hS]
        -- t * S ≤ S - PRECISION*res because (1-t) * S = |bv| * S / D ≥ |bv|
        have h4 : PRECISION * c.res ≤ (1 - t) * S := by
          rw [h1t, div_mul_eq_mul_div, le_div_iff₀ hDpos]
          calc PRECISION * c.res * D ≤ |bv| * D :=
                mul_le_mul_of_nonneg_right hbv' (le_of_lt hDpos)
          _ ≤ |bv| * S := mul_le_mul_of_nonneg_left hDS (abs_nonneg _)
        linarith
      · rw [if_neg hn]
        push_neg at hn
        have hs' : rsignum (c.objVal (a + t • (b - a)) c.res) ≠ rsignum bv := by
          rw [← hn]; exact hs
        apply ih (a + t • (b - a)) _ b bv rfl hbv hs'
        have hsub : (a + t • (b - a)) - b = (1 - t) • (a - b) := by ext <;> simp <;> ring
        rw [hsub, linf_smul (by linarith) , ← hS]
        have h4 : PRECISION * c.res ≤ t * S := by
          rw [htD, div_mul_eq_mul_div, le_div_iff₀ hDpos]
          calc PRECISION * c.res * D ≤ |av| * D :=
                mul_le_mul_of_nonneg_right hav' (le_of_lt hDpos)
          _ ≤ |av| * S := mul_le_mul_of_nonneg_left hDS (abs_nonneg _)
        linarith

/-- C2: contract of `find_zero` for two distinct points `a`, `b` with values `av`,
`bv`: (i) with agreeing signs it returns nothing; (ii) as soon as the minimum of
the componentwise span of `a - b` (which the source computes as
`max(|min(a-b)|, max(a-b))`, the ℓ∞ span on axis-aligned segments), `|av|` and
`|bv|` drops below `PRECISION * res = 0.05 * res`, it returns the current endpoint
of smaller absolute value with the object's normal queried there; (iii) any
returned plane has its point on the segment `ab` and its normal queried at that
point. -/
theorem find_zero_contract (c : Ctx) (fuel : ℕ) (a : Vec3) (av : ℚ) (b : Vec3)
    (bv : ℚ) (hab : a ≠ b) :
    (rsignum av = rsignum bv → find_zero c fuel a av b bv = none) ∧
    (rsignum av ≠ rsignum bv → 1 ≤ fuel →
      min (min (max |(a - b).vmin| (a - b).vmax) |av|) |bv| < PRECISION * c.res →
      find_zero c fuel a av b bv =
        some { p := if |bv| < |av| then b else a,
               n := c.objNormal (if |bv| < |av| then b else a) }) ∧
    (∀ pl, find_zero c fuel a av b bv = some pl →
      onSegment a b pl.p ∧ pl.n = c.objNormal pl.p) := by
  refine ⟨find_zero_sign_eq c fuel a av b bv, ?_,
    fun pl h => find_zero_some_seg c fuel a av b bv pl h⟩
  intro hs hf hd
  obtain ⟨m, rfl⟩ : ∃ m, fuel = m + 1 := ⟨fuel - 1, by omega⟩
  exact find_zero_immediate c m a av b bv hs hd

/-- A fixed concrete context used by the witnesses below. -/
def ctxW : Ctx where
  objVal := fun _ _ => 1
  objNormal := fun _ => ⟨0, 0, 0⟩
  res := 1
  origin := ⟨0, 0, 0⟩
  cellConfigs := fun _ => []
  qefSolve := fun _ => ⟨0, 0, 0⟩
  sqrt3 := 2

/-- Witness for C2: for the concrete pair `a = (0,0,0)`, `b = (1,0,0)` the
agreeing-sign case returns nothing, and a concretely computed result lies on the
segment with the object's normal at its point. -/
theorem find_zero_contract_witness :
    find_zero ctxW 5 ⟨0, 0, 0⟩ 1 ⟨1, 0, 0⟩ 1 = none ∧
    (onSegment ⟨0, 0, 0⟩ ⟨1, 0, 0⟩ ⟨0, 0, 0⟩ ∧
      (⟨0, 0, 0⟩ : Vec3) = ctxW.objNormal ⟨0, 0, 0⟩) :=
  ⟨(find_zero_contract ctxW 5 ⟨0, 0, 0⟩ 1 ⟨1, 0, 0⟩ 1 (by simp)).1 rfl,
   by
    have habs : |-(1 : ℚ)/100| = 1/100 := by
      rw [show -(1 : ℚ)/100 = -(1/100) by norm_num, abs_neg, abs_of_pos (by norm_num)]
    have heq := (find_zero_contract ctxW 2 ⟨0, 0, 0⟩ (-(1 : ℚ)/100) ⟨1, 0, 0⟩ 1
      (by simp)).2.1 (by norm_num [rsignum]) (by norm_num)
      (by
        have habs2 : |(1 : ℚ)/100| = 1/100 := abs_of_pos (by norm_num)
        norm_num [Vec3.vmin, Vec3.vmax, PRECISION, ctxW, habs, habs2, abs_neg, abs_one])
    have hif : (if |(1 : ℚ)| < |-(1 : ℚ)/100| then (⟨1, 0, 0⟩ : Vec3) else ⟨0, 0, 0⟩)
        = ⟨0, 0, 0⟩ := by
      rw [if_neg]
      rw [habs, abs_one]
      norm_num
    rw [hif] at heq
    have h := (find_zero_contract ctxW 2 ⟨0, 0, 0⟩ (-(1 : ℚ)/100) ⟨1, 0, 0⟩ 1
      (by simp)).2.2 _ heq
    simpa [ctxW] using h⟩

/-! ## Edge-grid population (claim C1) -/

/-- The axis a base edge runs along (`edge as usize` for `A`, `B`, `C`, computed
as `% 3` so the function is total on `Edge`). -/
def edgeAxis (e : Edge) : Fin 3 := ⟨e.toNat % 3, Nat.mod_lt _ (by omega)⟩

/-- One step of the edge-grid population loop of `try_tesselate` (source lines
437-466): for base edge `e` anchored at grid point `point_idx` with sampled value
`point_value`, look up the adjacent grid point one step along `e`; when it is
present, run `find_zero` between the two corner positions and return the produced
entry (if any). -/
def crossing_for_edge (c : Ctx) (fuel : ℕ) (vg : VGrid) (point_idx : Idx3)
    (point_value : ℚ) (e : Edge) : EGrid :=
  let adjacent_idx := point_idx.bump (edgeAxis e)
  match vg.get adjacent_idx with
  | none => []
  | some adjacent_value =>
    let point_pos := gridPos c point_idx
    let adjacent_pos := point_pos.set (edgeAxis e) (point_pos.get (edgeAxis e) + c.res)
    match find_zero c fuel point_pos point_value adjacent_pos adjacent_value with
    | none => []
    | some plane => [({ edge := e, index := point_idx }, plane)]

/-- The edge-grid population loop: for every value-grid entry and every base edge
`A`, `B`, `C`, insert the crossing plane found by `find_zero`.  The source iterates
a `HashMap` in unspecified order; we iterate the association list in list order
(the set of entries produced is order independent). -/
def build_edge_grid (c : Ctx) (fuel : ℕ) (vg : VGrid) : EGrid :=
  vg.foldl (fun eg pr =>
    [Edge.A, Edge.B, Edge.C].foldl (fun eg e =>
      eg ++ crossing_for_edge c fuel vg pr.1 pr.2 e) eg) []

theorem mem_foldl_append {α β : Type} (f : α → List β) :
    ∀ (l : List α) (init : List β) (x : β),
      (x ∈ l.foldl (fun acc e => acc ++ f e) init ↔ x ∈ init ∨ ∃ e ∈ l, x ∈ f e) := by
  intro l
  induction l with
  | nil => simp
  | cons a l ih =>
    intro init x
    rw [List.foldl_cons, ih, List.mem_append]
    simp [or_assoc]

theorem mem_build_edge_grid (c : Ctx) (fuel : ℕ) (vg : VGrid) (x : EdgeIndex × Plane) :
    x ∈ build_edge_grid c fuel vg ↔
      ∃ pr ∈ vg, ∃ e ∈ [Edge.A, Edge.B, Edge.C],
        x ∈ crossing_for_edge c fuel vg pr.1 pr.2 e := by
  unfold build_edge_grid
  suffices h : ∀ (l : List (Idx3 × ℚ)) (init : EGrid),
      (x ∈ l.foldl (fun eg pr =>
        [Edge.A, Edge.B, Edge.C].foldl (fun eg e =>
          eg ++ crossing_for_edge c fuel vg pr.1 pr.2 e) eg) init ↔
      x ∈ init ∨ ∃ pr ∈ l, ∃ e ∈ [Edge.A, Edge.B, Edge.C],
        x ∈ crossing_for_edge c fuel vg pr.1 pr.2 e) by
    rw [h vg []]
    simp
  intro l
  induction l with
  | nil => simp
  | cons a l ih =>
    intro init
    rw [List.foldl_cons, ih, mem_foldl_append]
    simp [or_assoc]

theorem mem_crossing_for_edge {c : Ctx} {fuel : ℕ} {vg : VGrid} {pi : Idx3} {pv : ℚ}
    {e e' : Edge} {i : Idx3} {pl : Plane} :
    ({ edge := e', index := i }, pl) ∈ crossing_for_edge c fuel vg pi pv e ↔
      e' = e ∧ i = pi ∧ ∃ w, vg.get (pi.bump (edgeAxis e)) = some w ∧
        find_zero c fuel (gridPos c pi) pv
          ((gridPos c pi).set (edgeAxis e)
            ((gridPos c pi).get (edgeAxis e) + c.res)) w = some pl := by
  unfold crossing_for_edge
  rcases hget : vg.get (pi.bump (edgeAxis e)) with _ | w
  · simp [hget]
  · simp only [hget]
    rcases hfz : find_zero c fuel (gridPos c pi) pv
        ((gridPos c pi).set (edgeAxis e) ((gridPos c pi).get (edgeAxis e) + c.res)) w with
        _ | plane
    · simp [hfz]
    · simp only [hfz, List.mem_singleton, Prod.mk.injEq, EdgeIndex.mk.injEq,
        Option.some.injEq]
      constructor
      · rintro ⟨⟨he, hi⟩, hp⟩
        exact ⟨he, hi, w, rfl, by rw [hfz, hp]⟩
      · rintro ⟨rfl, rfl, w', hw', hfz'⟩
        obtain rfl : w = w' := hw'
        refine ⟨⟨rfl, rfl⟩, ?_⟩
        rw [hfz] at hfz'
        exact ((Option.some.injEq _ _).mp hfz').symm

theorem gridPos_bump (c : Ctx) (i : Idx3) (k : Fin 3) :
    (gridPos c i).set k ((gridPos c i).get k + c.res) = gridPos c (i.bump k) := by
  fin_cases k <;>
    · ext <;> simp [gridPos, Vec3.set, Vec3.get, Idx3.bump] <;> push_cast <;> ring

theorem linf_axis_neg {r : ℚ} (hr : 0 ≤ r) :
    linf ⟨-r, 0, 0⟩ = r ∧ linf ⟨0, -r, 0⟩ = r ∧ linf ⟨0, 0, -r⟩ = r := by
  unfold linf Vec3.vmin Vec3.vmax
  simp only [min_self, max_self]
  refine ⟨?_, ?_, ?_⟩
  · rw [min_eq_left (by linarith : -r ≤ (0:ℚ)), max_eq_right (by linarith : -r ≤ (0:ℚ)),
      abs_neg, abs_of_nonneg hr, max_eq_left hr]
  · rw [min_eq_left (by linarith : -r ≤ (0:ℚ)), min_eq_right (by linarith : -r ≤ (0:ℚ)),
      max_eq_right (by linarith : -r ≤ (0:ℚ)), max_self,
      abs_neg, abs_of_nonneg hr, max_eq_left hr]
  · rw [min_eq_right (by linarith : -r ≤ (0:ℚ)), min_eq_right (by linarith : -r ≤ (0:ℚ)),
      max_eq_left (by linarith : -r ≤ (0:ℚ)), max_self,
      abs_neg, abs_of_nonneg hr, max_eq_left hr]

theorem linf_gridPos_bump (c : Ctx) (hres : 0 ≤ c.res) (i : Idx3) (k : Fin 3) :
    linf (gridPos c i - gridPos c (i.bump k)) = c.res := by
  fin_cases k
  · show linf (gridPos c i - gridPos c (i.bump 0)) = c.res
    have h : gridPos c i - gridPos c (i.bump 0) = ⟨-c.res, 0, 0⟩ := by
      ext <;> simp [gridPos, Idx3.bump] <;> push_cast <;> ring
    rw [h]; exact (linf_axis_neg hres).1
  · show linf (gridPos c i - gridPos c (i.bump 1)) = c.res
    have h : gridPos c i - gridPos c (i.bump 1) = ⟨0, -c.res, 0⟩ := by
      ext <;> simp [gridPos, Idx3.bump] <;> push_cast <;> ring
    rw [h]; exact (linf_axis_neg hres).2.1
  · show linf (gridPos c i - gridPos c (i.bump 2)) = c.res
    have h : gridPos c i - gridPos c (i.bump 2) = ⟨0, 0, -c.res⟩ := by
      ext <;> simp [gridPos, Idx3.bump] <;> push_cast <;> ring
    rw [h]; exact (linf_axis_neg hres).2.2

theorem VGrid.get_mem {vg : VGrid} {i : Idx3} {v : ℚ} (h : vg.get i = some v) :
    (i, v) ∈ vg := by
  unfold VGrid.get at h
  rcases hf : vg.find? (fun e => e.1 = i) with _ | pr
  · rw [hf] at h; simp at h
  · rw [hf] at h
    simp at h
    have hm := List.mem_of_find?_eq_some hf
    have hp : pr.1 = i := by
      have hp' := List.find?_some hf
      simpa using hp'
    cases pr with
    | mk a b =>
      subst hp
      subst h
      exact hm

theorem VGrid.get_of_mem {vg : VGrid} (hnd : (vg.map Prod.fst).Nodup) {i : Idx3} {v : ℚ}
    (hm : (i, v) ∈ vg) : vg.get i = some v := by
  induction vg with
  | nil => simp at hm
  | cons pr rest ih =>
    rcases List.mem_cons.mp hm with rfl | hm'
    · unfold VGrid.get
      rw [List.find?_cons_of_pos _ (by simp)]
      rfl
    · have hnd' : (rest.map Prod.fst).Nodup := (List.nodup_cons.mp hnd).2
      have hne : ¬ pr.1 = i := by
        intro he
        have h1 : i ∈ rest.map Prod.fst := List.mem_map_of_mem Prod.fst hm'
        exact (List.nodup_cons.mp hnd).1 (he ▸ h1)
      unfold VGrid.get
      rw [List.find?_cons_of_neg _ (by simpa using hne)]
      exact ih hnd' hm'

theorem linf_ge_abs_x (v : Vec3) : |v.x| ≤ linf v := by
  unfold linf Vec3.vmin Vec3.vmax
  rcases le_or_lt 0 v.x with h | h
  · rw [abs_of_nonneg h]
    exact le_trans (le_max_left _ (max v.y v.z)) (le_max_right _ _)
  · rw [abs_of_neg h]
    calc -v.x ≤ -(min v.x (min v.y v.z)) := neg_le_neg (min_le_left _ _)
    _ ≤ |min v.x (min v.y v.z)| := neg_le_abs _
    _ ≤ max |min v.x (min v.y v.z)| (max v.x (max v.y v.z)) := le_max_left _ _

/-- C1 (amended): after edge-grid population, an entry exists for a grid edge
exactly when both endpoint values are present in the value grid and have opposite
signs, and every entry's stored point lies on the **closed** segment between the
edge's two grid endpoints (it may coincide with an endpoint — see the
counterexample `edge_grid_strict_cx`; the original claim demanded strict
interiority).  The hypotheses are the preconditions of the pipeline: positive
resolution, the §6 object-interface 1-Lipschitz bound, grid values sampled from
the object, distinct grid keys, and enough `find_zero` fuel (the Lipschitz bound
makes 21 iterations suffice for a span of one cell). -/
theorem edge_grid_invariant (c : Ctx) (fuel : ℕ) (vg : VGrid)
    (hres : 0 < c.res)
    (hLip : ∀ p q : Vec3, |c.objVal p c.res - c.objVal q c.res| ≤ linf (p - q))
    (hvals : ∀ pr ∈ vg, pr.2 = c.objVal (gridPos c pr.1) c.res)
    (hnd : (vg.map Prod.fst).Nodup)
    (hfuel : 21 ≤ fuel) :
    (∀ e ∈ [Edge.A, Edge.B, Edge.C], ∀ i : Idx3,
      ((∃ pl, ({ edge := e, index := i }, pl) ∈ build_edge_grid c fuel vg) ↔
        ∃ v w, vg.get i = some v ∧ vg.get (i.bump (edgeAxis e)) = some w ∧
          rsignum v ≠ rsignum w)) ∧
    ∀ ei pl, (ei, pl) ∈ build_edge_grid c fuel vg →
      ei.edge ∈ [Edge.A, Edge.B, Edge.C] ∧
      onSegment (gridPos c ei.index) (gridPos c (ei.index.bump (edgeAxis ei.edge)))
        pl.p := by
  constructor
  · intro e he i
    constructor
    · rintro ⟨pl, hmem⟩
      obtain ⟨pr, hpr, e2, he2, hcr⟩ := (mem_build_edge_grid c fuel vg _).mp hmem
      obtain ⟨rfl, rfl, w, hw, hfz⟩ := mem_crossing_for_edge.mp hcr
      refine ⟨pr.2, w, ?_, hw, ?_⟩
      · exact VGrid.get_of_mem hnd (by simpa using hpr)
      · intro hsgn
        rw [find_zero_sign_eq c fuel _ _ _ _ hsgn] at hfz
        exact absurd hfz (by simp)
    · rintro ⟨v, w, hv, hw, hsgn⟩
      have hmv : (i, v) ∈ vg := VGrid.get_mem hv
      have hmw : (i.bump (edgeAxis e), w) ∈ vg := VGrid.get_mem hw
      have hvv : v = c.objVal (gridPos c i) c.res := hvals _ hmv
      have hww : w = c.objVal (gridPos c (i.bump (edgeAxis e))) c.res := hvals _ hmw
      have hlt : linf (gridPos c i - gridPos c (i.bump (edgeAxis e))) <
          PRECISION * c.res * (fuel : ℚ) := by
        rw [linf_gridPos_bump c (le_of_lt hres)]
        have h21 : (21 : ℚ) ≤ (fuel : ℚ) := by exact_mod_cast hfuel
        have hmono : PRECISION * c.res * 21 ≤ PRECISION * c.res * (fuel : ℚ) := by
          apply mul_le_mul_of_nonneg_left h21
          have : (0:ℚ) < PRECISION := by norm_num [PRECISION]
          positivity
        have hval : PRECISION * c.res * 21 = (21/20) * c.res := by
          rw [PRECISION]; ring
        have : c.res < (21/20) * c.res := by linarith
        linarith
      have hsome := find_zero_terminates c hres hLip fuel (gridPos c i) v
        (gridPos c (i.bump (edgeAxis e))) w hvv hww hsgn hlt
      obtain ⟨pl, hpl⟩ := Option.isSome_iff_exists.mp hsome
      refine ⟨pl, (mem_build_edge_grid c fuel vg _).mpr
        ⟨(i, v), hmv, e, he, mem_crossing_for_edge.mpr ⟨rfl, rfl, w, hw, ?_⟩⟩⟩
      rw [gridPos_bump]
      exact hpl
  · intro ei pl hmem
    obtain ⟨pr, hpr, e, he, hcr⟩ := (mem_build_edge_grid c fuel vg _).mp hmem
    cases ei with
    | mk e' i =>
      obtain ⟨rfl, rfl, w, hw, hfz⟩ := mem_crossing_for_edge.mp hcr
      refine ⟨he, ?_⟩
      have hseg := (find_zero_some_seg c fuel _ _ _ _ pl hfz).1
      rwa [gridPos_bump] at hseg

/-- A context whose field has a zero crossing only `1/100` away from the grid
corner `(0,0,0)`: `find_zero` then returns that corner itself. -/
def ctxC1 : Ctx where
  objVal := fun p _ => if p = ⟨0, 0, 0⟩ then 1/100 else -1
  objNormal := fun _ => ⟨0, 0, 0⟩
  res := 1
  origin := ⟨0, 0, 0⟩
  cellConfigs := fun _ => []
  qefSolve := fun _ => ⟨0, 0, 0⟩
  sqrt3 := 2

def vgC1 : VGrid := [(⟨0, 0, 0⟩, 1/100), (⟨1, 0, 0⟩, -1)]

/-- Counterexample to the strict part of C1 as stated: the populated edge grid for
`ctxC1`/`vgC1` contains an entry whose stored point **equals** the lower grid
endpoint of its edge (position `gridPos ctxC1 (0,0,0) = (0,0,0)`), so the point is
not strictly inside the open segment between the endpoints. -/
theorem edge_grid_strict_cx :
    ({ edge := Edge.A, index := ⟨0, 0, 0⟩ },
        { p := ⟨0, 0, 0⟩, n := ⟨0, 0, 0⟩ }) ∈ build_edge_grid ctxC1 21 vgC1 ∧
      gridPos ctxC1 ⟨0, 0, 0⟩ = ⟨0, 0, 0⟩ := by
  have hpos : gridPos ctxC1 ⟨0, 0, 0⟩ = ⟨0, 0, 0⟩ := by
    ext <;> simp [gridPos, ctxC1]
  refine ⟨?_, hpos⟩
  have hget : vgC1.get (Idx3.bump ⟨0, 0, 0⟩ (edgeAxis Edge.A)) = some (-1) := by
    norm_num [VGrid.get, vgC1, edgeAxis, Edge.toNat, Idx3.bump, List.find?]
  refine (mem_build_edge_grid ctxC1 21 vgC1 _).mpr
    ⟨(⟨0, 0, 0⟩, 1/100), by simp [vgC1], Edge.A, by simp,
      mem_crossing_for_edge.mpr ⟨rfl, rfl, -1, hget, ?_⟩⟩
  have hb : (gridPos ctxC1 ⟨0, 0, 0⟩).set (edgeAxis Edge.A)
      ((gridPos ctxC1 ⟨0, 0, 0⟩).get (edgeAxis Edge.A) + ctxC1.res) = ⟨1, 0, 0⟩ := by
    rw [hpos]
    norm_num [Vec3.set, Vec3.get, edgeAxis, Edge.toNat, ctxC1]
  rw [hb, hpos]
  have h21 : (21 : ℕ) = 20 + 1 := rfl
  rw [h21]
  have habs1 : |(1 : ℚ)/100| = 1/100 := abs_of_pos (by norm_num)
  have heq := find_zero_immediate ctxC1 20 ⟨0, 0, 0⟩ (1/100) ⟨1, 0, 0⟩ (-1)
    (by norm_num [rsignum]) (by norm_num [Vec3.vmin, Vec3.vmax, PRECISION, ctxC1, habs1])
  rw [heq]
  norm_num [habs1, ctxC1]

/-- A 1-Lipschitz linear field used to witness C1's hypotheses. -/
def ctxC1w : Ctx where
  objVal := fun p _ => p.x - 1/2
  objNormal := fun _ => ⟨0, 0, 0⟩
  res := 1
  origin := ⟨0, 0, 0⟩
  cellConfigs := fun _ => []
  qefSolve := fun _ => ⟨0, 0, 0⟩
  sqrt3 := 2

def vgC1w : VGrid := [(⟨0, 0, 0⟩, -(1 : ℚ)/2), (⟨1, 0, 0⟩, 1/2)]

/-- Witness for C1: the hypotheses hold for the linear field `x - 1/2` on a
one-cell grid, and the characterisation applies at edge `A` of cell `(0,0,0)`. -/
theorem edge_grid_invariant_witness :
    (∃ pl, ({ edge := Edge.A, index := ⟨0, 0, 0⟩ }, pl) ∈
        build_edge_grid ctxC1w 21 vgC1w) ↔
      ∃ v w, vgC1w.get ⟨0, 0, 0⟩ = some v ∧
        vgC1w.get (Idx3.bump ⟨0, 0, 0⟩ (edgeAxis Edge.A)) = some w ∧
        rsignum v ≠ rsignum w :=
  (edge_grid_invariant ctxC1w 21 vgC1w (by norm_num [ctxC1w])
    (by
      intro p q
      have h : ctxC1w.objVal p ctxC1w.res - ctxC1w.objVal q ctxC1w.res = (p - q).x := by
        simp [ctxC1w]
      rw [h]
      exact linf_ge_abs_x (p - q))
    (by
      intro pr hpr
      rcases List.mem_cons.mp hpr with rfl | hpr'
      · norm_num [ctxC1w, gridPos]
      · rcases List.mem_cons.mp hpr' with rfl | h'
        · norm_num [ctxC1w, gridPos]
        · exact absurd h' (by simp))
    (by simp [vgC1w])
    (le_refl 21)).1 Edge.A (by simp) ⟨0, 0, 0⟩

/-! ## Scalar-field sampler (claim C3) -/

/-- The eight sub-cube corner offsets in the source's loop order (`z` outermost,
then `y`, then `x` innermost). -/
def cubeCorners : List (ℕ × ℕ × ℕ) :=
  [(0, 0, 0), (1, 0, 0), (0, 1, 0), (1, 1, 0),
   (0, 0, 1), (1, 0, 1), (0, 1, 1), (1, 1, 1)]

/-- The corner index visited by the sampling loop: the source increments and
decrements `midx` in place; the net offset at corner `(x, y, z)` is
`idx + size * (x, y, z)`. -/
def subIdx (idx : Idx3) (size : ℕ) (corner : ℕ × ℕ × ℕ) : Idx3 :=
  ⟨idx.x + size * corner.1, idx.y + size * corner.2.1, idx.z + size * corner.2.2⟩

/-- The corner position `Point::new(vpos[x].x, vpos[y].y, vpos[z].z)`. -/
def subPos (pos vpos1 : Vec3) (corner : ℕ × ℕ × ℕ) : Vec3 :=
  ⟨(if corner.1 = 0 then pos else vpos1).x,
   (if corner.2.1 = 0 then pos else vpos1).y,
   (if corner.2.2 = 0 then pos else vpos1).z⟩

/-- The body of `sample_value_grid`'s triple loop over the eight sub-cubes, with
the recursive call abstracted as `recurse`.  Mirrors the source: reuse `val` at
the shared corner (`midx == idx`), otherwise query the object; fail with the
`HitZero` point on an exact zero; recurse into a sub-cube that may straddle the
surface (`size > 1 && |value| <= sub_cube_diagonal`); otherwise record the value
(`HashMap::insert`, modelled as consing the pair). -/
def sample_subcubes (c : Ctx)
    (recurse : Idx3 → Vec3 → ℕ → ℚ → VGrid → Except Vec3 VGrid)
    (idx : Idx3) (pos vpos1 : Vec3) (size : ℕ) (diag : ℚ) (val : ℚ) :
    List (ℕ × ℕ × ℕ) → VGrid → Except Vec3 VGrid
  | [], vg => .ok vg
  | corner :: rest, vg =>
    let midx := subIdx idx size corner
    let mpos := subPos pos vpos1 corner
    let value := if midx = idx then val else c.objVal mpos c.res
    if value = 0 then .error mpos
    else if 1 < size ∧ |value| ≤ diag then
      match recurse midx mpos size value vg with
      | .error p => .error p
      | .ok vg' => sample_subcubes c recurse idx pos vpos1 size diag val rest vg'
    else
      sample_subcubes c recurse idx pos vpos1 size diag val rest ((midx, value) :: vg)

/-- `sample_value_grid` from the source: recursive octree descent halving `size`,
skipping sub-cubes whose value exceeds the sub-cube spatial diagonal
`size * res * √3`.  The recursion has no structural measure in the source (it
halves `size`); it takes fuel here, and fuel exhaustion leaves the grid as is. -/
def sample_value_grid (c : Ctx) :
    ℕ → Idx3 → Vec3 → ℕ → ℚ → VGrid → Except Vec3 VGrid
  | 0, _, _, _, _, vg => .ok vg
  | fuel+1, idx, pos, size, val, vg =>
    let size := size / 2
    let vpos1 := pos + (size : ℚ) • (⟨c.res, c.res, c.res⟩ : Vec3)
    let sub_cube_diagonal := (size : ℚ) * c.res * c.sqrt3
    sample_subcubes c (sample_value_grid c fuel) idx pos vpos1 size
      sub_cube_diagonal val cubeCorners vg

/-- If the shared-corner test `midx == idx` holds then the corner position is the
cube origin itself. -/
theorem subPos_eq_pos {c : Ctx} {idx : Idx3} {pos vpos1 : Vec3} {size : ℕ}
    {corner : ℕ × ℕ × ℕ}
    (hv1 : vpos1 = pos + (size : ℚ) • (⟨c.res, c.res, c.res⟩ : Vec3))
    (h : subIdx idx size corner = idx) : subPos pos vpos1 corner = pos := by
  have hx : size * corner.1 = 0 := by
    have := congrArg Idx3.x h
    simp only [subIdx] at this
    omega
  have hy : size * corner.2.1 = 0 := by
    have := congrArg Idx3.y h
    simp only [subIdx] at this
    omega
  have hz : size * corner.2.2 = 0 := by
    have := congrArg Idx3.z h
    simp only [subIdx] at this
    omega
  have hvp : size = 0 → vpos1 = pos := by
    intro h0
    subst h0
    rw [hv1]
    ext <;> simp
  unfold subPos
  rcases Nat.eq_zero_or_pos size with hs | hs
  · rw [hvp hs]
    ext <;> simp <;> split <;> rfl
  · have hc1 : corner.1 = 0 := by
      rcases Nat.mul_eq_zero.mp hx with h | h
      · omega
      · exact h
    have hc2 : corner.2.1 = 0 := by
      rcases Nat.mul_eq_zero.mp hy with h | h
      · omega
      · exact h
    have hc3 : corner.2.2 = 0 := by
      rcases Nat.mul_eq_zero.mp hz with h | h
      · omega
      · exact h
    rw [hc1, hc2, hc3]
    ext <;> simp

theorem sample_subcubes_error (c : Ctx)
    (recurse : Idx3 → Vec3 → ℕ → ℚ → VGrid → Except Vec3 VGrid)
    (hrec : ∀ midx mpos size' value vg p, value = c.objVal mpos c.res →
      recurse midx mpos size' value vg = .error p → c.objVal p c.res = 0) :
    ∀ (corners : List (ℕ × ℕ × ℕ)) idx (pos vpos1 : Vec3) (size : ℕ) (diag : ℚ) val vg p,
      val = c.objVal pos c.res →
      vpos1 = pos + (size : ℚ) • (⟨c.res, c.res, c.res⟩ : Vec3) →
      sample_subcubes c recurse idx pos vpos1 size diag val corners vg = .error p →
      c.objVal p c.res = 0 := by
  intro corners
  induction corners with
  | nil =>
    intro idx pos vpos1 size diag val vg p _ _ h
    simp [sample_subcubes] at h
  | cons corner rest ih =>
    intro idx pos vpos1 size diag val vg p hval hv1 h
    simp only [sample_subcubes] at h
    have hvc : (if subIdx idx size corner = idx then val
        else c.objVal (subPos pos vpos1 corner) c.res) =
        c.objVal (subPos pos vpos1 corner) c.res := by
      split
      · next hmid => rw [subPos_eq_pos hv1 hmid, hval]
      · rfl
    by_cases h0 : (if subIdx idx size corner = idx then val
        else c.objVal (subPos pos vpos1 corner) c.res) = 0
    · rw [if_pos h0] at h
      have hp : subPos pos vpos1 corner = p := by
        injection h
      rw [← hp, ← hvc]
      exact h0
    · rw [if_neg h0] at h
      by_cases hstep : 1 < size ∧ |if subIdx idx size corner = idx then val
          else c.objVal (subPos pos vpos1 corner) c.res| ≤ diag
      · rw [if_pos hstep] at h
        rcases hr : recurse (subIdx idx size corner) (subPos pos vpos1 corner) size
            (if subIdx idx size corner = idx then val
              else c.objVal (subPos pos vpos1 corner) c.res) vg with p' | vg''
        · rw [hr] at h
          have hp : p' = p := by injection h
          exact hrec _ _ _ _ _ _ hvc (hp ▸ hr)
        · rw [hr] at h
          exact ih _ _ _ _ _ _ _ _ hval hv1 h
      · rw [if_neg hstep] at h
        exact ih _ _ _ _ _ _ _ _ hval hv1 h

theorem sample_subcubes_ok (c : Ctx)
    (recurse : Idx3 → Vec3 → ℕ → ℚ → VGrid → Except Vec3 VGrid)
    (hrec : ∀ midx mpos size' value vg vg', (∀ pr ∈ vg, pr.2 ≠ (0:ℚ)) →
      recurse midx mpos size' value vg = .ok vg' → ∀ pr ∈ vg', pr.2 ≠ (0:ℚ)) :
    ∀ (corners : List (ℕ × ℕ × ℕ)) idx (pos vpos1 : Vec3) (size : ℕ) (diag : ℚ) val vg vg',
      (∀ pr ∈ vg, pr.2 ≠ (0:ℚ)) →
      sample_subcubes c recurse idx pos vpos1 size diag val corners vg = .ok vg' →
      ∀ pr ∈ vg', pr.2 ≠ (0:ℚ) := by
  intro corners
  induction corners with
  | nil =>
    intro idx pos vpos1 size diag val vg vg' hnz h
    simp only [sample_subcubes, Except.ok.injEq] at h
    exact h ▸ hnz
  | cons corner rest ih =>
    intro idx pos vpos1 size diag val vg vg' hnz h
    simp only [sample_subcubes] at h
    by_cases h0 : (if subIdx idx size corner = idx then val
        else c.objVal (subPos pos vpos1 corner) c.res) = 0
    · rw [if_pos h0] at h
      exact absurd h (by simp)
    · rw [if_neg h0] at h
      by_cases hstep : 1 < size ∧ |if subIdx idx size corner = idx then val
          else c.objVal (subPos pos vpos1 corner) c.res| ≤ diag
      · rw [if_pos hstep] at h
        rcases hr : recurse (subIdx idx size corner) (subPos pos vpos1 corner) size
            (if subIdx idx size corner = idx then val
              else c.objVal (subPos pos vpos1 corner) c.res) vg with p' | vg''
        · rw [hr] at h
          exact absurd h (by simp)
        · rw [hr] at h
          exact ih _ _ _ _ _ _ _ _ (hrec _ _ _ _ _ _ hnz hr) h
      · rw [if_neg hstep] at h
        refine ih _ _ _ _ _ _ _ _ ?_ h
        intro pr hpr
        rcases List.mem_cons.mp hpr with rfl | hpr'
        · exact h0
        · exact hnz pr hpr'

theorem sample_subcubes_total (c : Ctx)
    (recurse : Idx3 → Vec3 → ℕ → ℚ → VGrid → Except Vec3 VGrid)
    (hrec : ∀ midx mpos size' value vg, value = c.objVal mpos c.res →
      ∃ vg', recurse midx mpos size' value vg = .ok vg')
    (hnz : ∀ q : Vec3, c.objVal q c.res ≠ 0) :
    ∀ (corners : List (ℕ × ℕ × ℕ)) idx (pos vpos1 : Vec3) (size : ℕ) (diag : ℚ) val vg,
      val = c.objVal pos c.res →
      vpos1 = pos + (size : ℚ) • (⟨c.res, c.res, c.res⟩ : Vec3) →
      ∃ vg', sample_subcubes c recurse idx pos vpos1 size diag val corners vg =
        .ok vg' := by
  intro corners
  induction corners with
  | nil =>
    intro idx pos vpos1 size diag val vg _ _
    exact ⟨vg, rfl⟩
  | cons corner rest ih =>
    intro idx pos vpos1 size diag val vg hval hv1
    have hvc : (if subIdx idx size corner = idx then val
        else c.objVal (subPos pos vpos1 corner) c.res) =
        c.objVal (subPos pos vpos1 corner) c.res := by
      split
      · next hmid => rw [subPos_eq_pos hv1 hmid, hval]
      · rfl
    have h0 : ¬ (if subIdx idx size corner = idx then val
        else c.objVal (subPos pos vpos1 corner) c.res) = 0 := by
      rw [hvc]
      exact hnz _
    simp only [sample_subcubes]
    rw [if_neg h0]
    by_cases hstep : 1 < size ∧ |if subIdx idx size corner = idx then val
        else c.objVal (subPos pos vpos1 corner) c.res| ≤ diag
    · rw [if_pos hstep]
      obtain ⟨vg'', hvg''⟩ := hrec (subIdx idx size corner) (subPos pos vpos1 corner)
        size _ vg hvc
      rw [hvg'']
      exact ih _ _ _ _ _ _ _ hval hv1
    · rw [if_neg hstep]
      exact ih _ _ _ _ _ _ _ hval hv1

/-- C3: the sampler fails with `HitZero` exactly on a zero corner value: any
returned error point is a (queried or reused) corner whose field value is exactly
`0`; conversely a field with no zeroes never produces an error; and whenever
sampling succeeds, every value stored in the resulting value grid (on top of a
zero-free input grid) is nonzero. -/
theorem sampler_zero_contract (c : Ctx) :
    (∀ fuel idx (pos : Vec3) size val vg (p : Vec3), val = c.objVal pos c.res →
      sample_value_grid c fuel idx pos size val vg = .error p →
      c.objVal p c.res = 0) ∧
    (∀ fuel idx (pos : Vec3) size val vg vg', (∀ pr ∈ vg, pr.2 ≠ (0:ℚ)) →
      sample_value_grid c fuel idx pos size val vg = .ok vg' →
      ∀ pr ∈ vg', pr.2 ≠ (0:ℚ)) ∧
    ((∀ q : Vec3, c.objVal q c.res ≠ 0) →
      ∀ fuel idx (pos : Vec3) size val vg, val = c.objVal pos c.res →
      ∃ vg', sample_value_grid c fuel idx pos size val vg = .ok vg') := by
  refine ⟨?_, ?_, ?_⟩
  · intro fuel
    induction fuel with
    | zero =>
      intro idx pos size val vg p _ h
      exact absurd h (by simp [sample_value_grid])
    | succ n ih =>
      intro idx pos size val vg p hval h
      rw [sample_value_grid] at h
      exact sample_subcubes_error c _ (fun midx mpos size' value vg p hvq hq =>
        ih midx mpos size' value vg p hvq hq) cubeCorners _ _ _ _ _ _ _ _ hval rfl h
  · intro fuel
    induction fuel with
    | zero =>
      intro idx pos size val vg vg' hnz h
      simp only [sample_value_grid, Except.ok.injEq] at h
      exact h ▸ hnz
    | succ n ih =>
      intro idx pos size val vg vg' hnz h
      rw [sample_value_grid] at h
      exact sample_subcubes_ok c _ (fun midx mpos size' value vg vg' hq hq2 =>
        ih midx mpos size' value vg vg' hq hq2) cubeCorners _ _ _ _ _ _ _ _ hnz h
  · intro hnz fuel
    induction fuel with
    | zero =>
      intro idx pos size val vg _
      exact ⟨vg, rfl⟩
    | succ n ih =>
      intro idx pos size val vg hval
      rw [sample_value_grid]
      exact sample_subcubes_total c _ (fun midx mpos size' value vg hvq =>
        ih midx mpos size' value vg hvq) hnz cubeCorners _ _ _ _ _ _ _ hval rfl

/-- Witness for C3: a zero-free constant field samples successfully from a fresh
grid. -/
theorem sampler_zero_contract_witness :
    ∃ vg', sample_value_grid ctxW 2 ⟨0, 0, 0⟩ ⟨0, 0, 0⟩ 2 1 [] = .ok vg' :=
  (sampler_zero_contract ctxW).2.2 (fun q => by norm_num [ctxW]) 2 ⟨0, 0, 0⟩
    ⟨0, 0, 0⟩ 2 1 [] (by simp [ctxW])

/-! ## Retry driver (claim C4) -/

/-- `VertexIndex` from the `vertex_index` collaborator: one surface component
(edge set) inside one cell. -/
structure VertexIndexT where
  edges : BSet
  index : Idx3
deriving DecidableEq, Repr

/-- The mesh: vertex positions and triangular faces (index triples). -/
abbrev MeshT := List Vec3 × List (ℕ × ℕ × ℕ)

/-- The mutable state of `DualMarchingCubes` that `tesselate`'s retry loop
touches: the grid origin, the value grid, the mesh lists and the two counters.
`edge_grid` and `vertex_map` are carried along so the retry step can be seen to
leave them alone (the source does not clear them). -/
structure DMCState where
  origin : Vec3
  value_grid : VGrid
  edge_grid : EGrid
  vertex_map : List (VertexIndexT × ℕ)
  meshVertices : List Vec3
  meshFaces : List (ℕ × ℕ × ℕ)
  qefs : ℕ
  clamps : ℕ

/-- One iteration of `tesselate`'s error arm (source lines 358-367): shift the
origin down along X by `res / (10 + |r|)` where `r` is the drawn random number,
clear the value grid and the mesh's vertex and face lists, and zero both
counters. -/
def retry_step (res : ℚ) (r : ℚ) (s : DMCState) : DMCState :=
  let padding := res / (10 + |r|)
  { origin := ⟨s.origin.x - padding, s.origin.y, s.origin.z⟩
    value_grid := []
    edge_grid := s.edge_grid
    vertex_map := s.vertex_map
    meshVertices := []
    meshFaces := []
    qefs := 0
    clamps := 0 }

/-- `tesselate` from the source: loop `try_tesselate` (abstracted as `attempt`,
which reads the current state), returning the first successful mesh and applying
`retry_step` with the next random draw `rs n` after each failure.  The source
loops without bound; the fuel only truncates the embedding, and the theorem shows
any finitely-failing run is reproduced with enough fuel — there is no retry
limit in the logic itself. -/
def tesselate (res : ℚ) (attempt : DMCState → Except Vec3 MeshT) (rs : ℕ → ℚ) :
    ℕ → ℕ → DMCState → Option MeshT
  | 0, _, _ => none
  | fuel+1, n, s =>
    match attempt s with
    | .ok mesh => some mesh
    | .error _ => tesselate res attempt rs fuel (n+1) (retry_step res (rs n) s)

/-- The state after `k` retry steps starting from draw index `m`. -/
def retry_iter (res : ℚ) (rs : ℕ → ℚ) : ℕ → DMCState → ℕ → DMCState
  | _, s, 0 => s
  | m, s, k+1 => retry_iter res rs (m+1) (retry_step res (rs m) s) k

/-- C4: the retry driver.  (i) Each failed attempt shifts the grid origin along X
by exactly `res / (10 + r)` for the drawn `r ∈ [0,1)` — a strictly positive
shift when `res > 0` — clears the value grid and the mesh's vertex and face
lists, resets both counters to zero, and leaves the edge grid and vertex map
untouched.  (ii) No retry limit: if the `n`-th attempt (after `n` failures)
succeeds, `tesselate` returns that mesh. -/
theorem tesselate_retry (res : ℚ) (r : ℚ) (s : DMCState)
    (hr0 : 0 ≤ r) (hr1 : r < 1) (hres : 0 < res) :
    ((retry_step res r s).origin.x = s.origin.x - res / (10 + r) ∧
      0 < res / (10 + r) ∧
      (retry_step res r s).origin.y = s.origin.y ∧
      (retry_step res r s).origin.z = s.origin.z ∧
      (retry_step res r s).value_grid = [] ∧
      (retry_step res r s).meshVertices = [] ∧
      (retry_step res r s).meshFaces = [] ∧
      (retry_step res r s).qefs = 0 ∧
      (retry_step res r s).clamps = 0 ∧
      (retry_step res r s).edge_grid = s.edge_grid ∧
      (retry_step res r s).vertex_map = s.vertex_map) ∧
    ∀ (attempt : DMCState → Except Vec3 MeshT) (rs : ℕ → ℚ) (n m : ℕ)
      (s0 : DMCState) (mesh : MeshT),
      (∀ k < n, ∃ p, attempt (retry_iter res rs m s0 k) = .error p) →
      attempt (retry_iter res rs m s0 n) = .ok mesh →
      tesselate res attempt rs (n+1) m s0 = some mesh := by
  constructor
  · have habs : |r| = r := abs_of_nonneg hr0
    refine ⟨by simp [retry_step, habs], ?_, by simp [retry_step], by simp [retry_step],
      rfl, rfl, rfl, rfl, rfl, rfl, rfl⟩
    apply div_pos hres
    linarith
  · intro attempt rs n
    induction n with
    | zero =>
      intro m s0 mesh _ hok
      rw [tesselate]
      rw [show retry_iter res rs m s0 0 = s0 from rfl] at hok
      rw [hok]
    | succ n ih =>
      intro m s0 mesh hfail hok
      obtain ⟨p, hp⟩ := hfail 0 (Nat.succ_pos n)
      rw [show retry_iter res rs m s0 0 = s0 from rfl] at hp
      rw [tesselate, hp]
      apply ih (m+1) (retry_step res (rs m) s0) mesh
      · intro k hk
        obtain ⟨p', hp'⟩ := hfail (k+1) (by omega)
        exact ⟨p', hp'⟩
      · exact hok

/-- Concrete attempt used by the C4 witness: succeeds once the origin has moved
below zero. -/
def attemptW : DMCState → Except Vec3 MeshT :=
  fun s => if s.origin.x < 0 then .ok ([], []) else .error ⟨0, 0, 0⟩

def s0W : DMCState :=
  { origin := ⟨0, 0, 0⟩, value_grid := [], edge_grid := [], vertex_map := [],
    meshVertices := [], meshFaces := [], qefs := 0, clamps := 0 }

/-- Witness for C4: with `res = 1` and the zero random stream, the first attempt
fails, the retry shifts the origin to `-1/10`, and the second attempt succeeds. -/
theorem tesselate_retry_witness :
    (retry_step 1 0 s0W).origin.x = s0W.origin.x - 1 / (10 + 0) ∧
    tesselate 1 attemptW (fun _ => 0) 2 0 s0W = some ([], []) := by
  constructor
  · exact ((tesselate_retry 1 0 s0W (le_refl 0) (by norm_num) (by norm_num)).1).1
  · apply (tesselate_retry 1 0 s0W (le_refl 0) (by norm_num) (by norm_num)).2
      attemptW (fun _ => 0) 1 0 s0W ([], [])
    · intro k hk
      have hk0 : k = 0 := by omega
      subst hk0
      exact ⟨⟨0, 0, 0⟩, by norm_num [retry_iter, attemptW, s0W]⟩
    · show attemptW (retry_iter 1 (fun _ => 0) 0 s0W 1) = .ok ([], [])
      norm_num [retry_iter, retry_step, attemptW, s0W]

/-! ## Vertex positioning and quad emission (claims C5, C6) -/

/-- `get_connected_edges`: the first edge-set in the cell's configuration that
contains `edge`.  The source panics when none exists; we return the empty set in
that unreachable branch (the theorems' hypotheses keep callers away from it). -/
def get_connected_edges (cfg : ℕ → List BSet) (edge : Edge) (cell : BSet) : BSet :=
  match (cfg cell).find? (fun edge_set => edge_set.get edge.toNat) with
  | some edge_set => edge_set
  | none => 0

/-- `get_connected_edges_from_edge_set`: every edge-set of the cell sharing at
least one edge with `edge_set` (the source pushes matches in table order). -/
def get_connected_edges_from_edge_set (cfg : ℕ → List BSet) (edge_set cell : BSet) :
    List BSet :=
  (cfg cell).filter (fun cell_edge_set => !(cell_edge_set.intersect edge_set).empty)

/-- `bitset_for_cell`: bit `z<<2 | y<<1 | x` is set iff the value at corner
`idx + (x,y,z)` is strictly negative.  The source panics on a missing corner; we
leave that bit unset (the pipeline precondition §4.1 guarantees presence). -/
def bitset_for_cell (vg : VGrid) (idx : Idx3) : BSet :=
  cubeCorners.foldl (fun result corner =>
    match vg.get ⟨idx.x + corner.1, idx.y + corner.2.1, idx.z + corner.2.2⟩ with
    | some v =>
      if v < 0 then result.set (corner.2.2 * 4 + corner.2.1 * 2 + corner.1) else result
    | none => result) 0

/-- `get_edge_tangent_plane`: fetch the plane stored for the canonical form of the
edge.  The source panics on a missing entry; we return a degenerate plane in that
unreachable branch. -/
def get_edge_tangent_plane (eg : EGrid) (edge_index : EdgeIndex) : Plane :=
  match eg.find? (fun pr => pr.1 = edge_index.base) with
  | some pr => pr.2
  | none => { p := ⟨0, 0, 0⟩, n := ⟨0, 0, 0⟩ }

/-- The tangent planes of all edges in an edge-set of cell `idx` (ascending bit
order, matching `BitSet::into_iter`). -/
def tangent_planes_of (eg : EGrid) (edge_set : BSet) (idx : Idx3) : List Plane :=
  edge_set.toEdgeList.map (fun edge =>
    get_edge_tangent_plane eg { edge := Edge.from_usize edge, index := idx })

/-- cgmath division of a vector by a scalar (used for the anchor centroid). -/
def Vec3.divScalar (v : Vec3) (q : ℚ) : Vec3 := ⟨v.x / q, v.y / q, v.z / q⟩

/-- `is_in_cell`: all three coordinates satisfy `0 < p[i] - origin[i] - idx[i]*res
< res`. -/
def is_in_cell (c : Ctx) (idx : Idx3) (p : Vec3) : Bool :=
  (List.finRange 3).all (fun i =>
    let d := p.get i - c.origin.get i - (idx.get i : ℚ) * c.res
    decide (0 < d ∧ d < c.res))

/-- The mutable state touched by the vertex positioner and the quad emitter:
the `VertexIndex → mesh vertex` memo map, the mesh lists and the two counters. -/
structure TS where
  vertex_map : List (VertexIndexT × ℕ)
  vertices : List Vec3
  faces : List (ℕ × ℕ × ℕ)
  qefs : ℕ
  clamps : ℕ
deriving DecidableEq, Repr

/-- `compute_cell_point`: build a fresh QEF from the edge-set's tangent planes,
solve it (the external `qefSolve`), accept the solution when strictly inside the
owning cell (counting `qefs`), otherwise fall back to the componentwise mean of
the planes' anchor points (counting `clamps`). -/
def compute_cell_point (c : Ctx) (eg : EGrid) (edge_set : BSet) (idx : Idx3)
    (s : TS) : Vec3 × TS :=
  let tps := tangent_planes_of eg edge_set idx
  let qef_solution := c.qefSolve tps
  if is_in_cell c idx qef_solution then
    (qef_solution, { s with qefs := s.qefs + 1 })
  else
    let mean := (tps.foldl (fun (sum : Vec3) x => sum + x.p)
      (⟨0, 0, 0⟩ : Vec3)).divScalar (tps.length : ℚ)
    (mean, { s with clamps := s.clamps + 1 })

/-- The `VertexIndex` that `lookup_cell_point` forms for `(edge, idx)`. -/
def vertex_index_of (cfg : ℕ → List BSet) (vg : VGrid) (edge : Edge) (idx : Idx3) :
    VertexIndexT :=
  { edges := get_connected_edges cfg edge (bitset_for_cell vg idx), index := idx }

/-- `lookup_cell_point`: memoised resolution of a `VertexIndex` to an index in the
mesh vertex list; on a miss the point is computed, appended and the map extended. -/
def lookup_cell_point (c : Ctx) (vg : VGrid) (eg : EGrid) (edge : Edge) (idx : Idx3)
    (s : TS) : ℕ × TS :=
  let vertex_index := vertex_index_of c.cellConfigs vg edge idx
  match s.vertex_map.find? (fun pr => pr.1 = vertex_index) with
  | some pr => (pr.2, s)
  | none =>
    let ps2 := compute_cell_point c eg vertex_index.edges idx s
    let result := ps2.2.vertices.length
    (result,
     { vertex_map := (vertex_index, result) :: ps2.2.vertex_map
       vertices := ps2.2.vertices ++ [ps2.1]
       faces := ps2.2.faces
       qefs := ps2.2.qefs
       clamps := ps2.2.clamps })

/-- The four cell-point lookups of `compute_quad`, in `QUADS` order, threading
the state. -/
def quad_points (c : Ctx) (vg : VGrid) (eg : EGrid) (edge_index : EdgeIndex)
    (s : TS) : List ℕ × TS :=
  (QUADS edge_index.edge).foldl (fun acc quad_edge =>
    let ps' := lookup_cell_point c vg eg quad_edge
      (edge_index.index.neg_offset (EDGE_OFFSET quad_edge)) acc.2
    (acc.1 ++ [ps'.1], ps'.2)) ([], s)

/-- `compute_quad`: gather the four cluster-vertex indices, reverse the list when
the value at the canonical index is negative, and append the two triangles
`(p0,p1,p2)` and `(p2,p3,p0)`. -/
def compute_quad (c : Ctx) (vg : VGrid) (eg : EGrid) (edge_index : EdgeIndex)
    (s : TS) : TS :=
  let pst := quad_points c vg eg edge_index s
  let p := match vg.get edge_index.index with
    | some v => if v < 0 then pst.1.reverse else pst.1
    | none => pst.1
  { pst.2 with faces := pst.2.faces ++
      [(p.getD 0 0, p.getD 1 0, p.getD 2 0), (p.getD 2 0, p.getD 3 0, p.getD 0 0)] }

/-- C5: vertex positioning.  (i) `is_in_cell` is exactly the strict in-cell test
`0 < p[i] - origin[i] - idx[i]*res < res` on all three coordinates.
(ii)/(iii) `compute_cell_point` returns the QEF solution and bumps the `qefs`
counter precisely when the solution passes that test, and otherwise returns the
componentwise mean of the tangent planes' anchor points and bumps `clamps`.
(iv) On a memo miss, `lookup_cell_point` appends exactly that point to the mesh
vertex list, returning its index and recording it in the map (the face list and
the rest of the state evolve only through `compute_cell_point`).
(v) The result is memoised per `VertexIndex`: looking the same cell/edge up again
returns the same mesh-vertex index and leaves the state unchanged, so each
cluster yields exactly one mesh vertex. -/
theorem vertex_positioning (c : Ctx) (vg : VGrid) (eg : EGrid) (e : Edge)
    (idx : Idx3) (s : TS) :
    (∀ p : Vec3, is_in_cell c idx p = true ↔
      ∀ i : Fin 3, 0 < p.get i - c.origin.get i - (idx.get i : ℚ) * c.res ∧
        p.get i - c.origin.get i - (idx.get i : ℚ) * c.res < c.res) ∧
    (∀ es,
      (is_in_cell c idx (c.qefSolve (tangent_planes_of eg es idx)) = true →
        compute_cell_point c eg es idx s =
          (c.qefSolve (tangent_planes_of eg es idx), { s with qefs := s.qefs + 1 })) ∧
      (is_in_cell c idx (c.qefSolve (tangent_planes_of eg es idx)) = false →
        compute_cell_point c eg es idx s =
          (((tangent_planes_of eg es idx).foldl (fun (sum : Vec3) x => sum + x.p)
              (⟨0, 0, 0⟩ : Vec3)).divScalar ((tangent_planes_of eg es idx).length : ℚ),
           { s with clamps := s.clamps + 1 }))) ∧
    (s.vertex_map.find?
        (fun pr => pr.1 = vertex_index_of c.cellConfigs vg e idx) = none →
      (lookup_cell_point c vg eg e idx s).1 = s.vertices.length ∧
      (lookup_cell_point c vg eg e idx s).2.vertices =
        s.vertices ++ [(compute_cell_point c eg
          (vertex_index_of c.cellConfigs vg e idx).edges idx s).1] ∧
      (lookup_cell_point c vg eg e idx s).2.vertex_map =
        (vertex_index_of c.cellConfigs vg e idx, s.vertices.length) :: s.vertex_map ∧
      (lookup_cell_point c vg eg e idx s).2.faces = s.faces) ∧
    lookup_cell_point c vg eg e idx ((lookup_cell_point c vg eg e idx s).2) =
      lookup_cell_point c vg eg e idx s := by
  refine ⟨?_, ?_, ?_, ?_⟩
  · intro p
    simp [is_in_cell, List.all_eq_true, List.mem_finRange]
  · intro es
    constructor
    · intro h
      simp only [compute_cell_point]
      rw [if_pos h]
    · intro h
      simp only [compute_cell_point]
      rw [if_neg (by simp [h])]
  · intro hmiss
    simp only [lookup_cell_point, hmiss]
    have hvertices : (compute_cell_point c eg
        (vertex_index_of c.cellConfigs vg e idx).edges idx s).2.vertices =
        s.vertices := by
      simp only [compute_cell_point]
      split <;> rfl
    have hvmap : (compute_cell_point c eg
        (vertex_index_of c.cellConfigs vg e idx).edges idx s).2.vertex_map =
        s.vertex_map := by
      simp only [compute_cell_point]
      split <;> rfl
    have hfaces : (compute_cell_point c eg
        (vertex_index_of c.cellConfigs vg e idx).edges idx s).2.faces =
        s.faces := by
      simp only [compute_cell_point]
      split <;> rfl
    exact ⟨by rw [hvertices], by rw [hvertices], by rw [hvertices, hvmap],
      by rw [hfaces]⟩
  · rcases hf : s.vertex_map.find?
        (fun pr => pr.1 = vertex_index_of c.cellConfigs vg e idx) with _ | pr
    · simp only [lookup_cell_point, hf]
      rw [List.find?_cons_of_pos _ (by simp)]
    · simp only [lookup_cell_point, hf]

/-- C6: quad emission.  For a base-edge entry of the edge grid, `compute_quad`
gathers the four cluster-vertex indices of the cells `canonical_index -
EDGE_OFFSET[quad_edge]` in `QUADS` order; exactly two triangles are appended,
`(p0,p1,p2)` and `(p2,p3,p0)` over the gathered list — which is reversed first
exactly when the value stored at the canonical index is negative, so the
negative-value winding is the reverse of the non-negative-value winding. -/
theorem quad_orientation (c : Ctx) (vg : VGrid) (eg : EGrid) (edge_index : EdgeIndex)
    (s : TS) (hbase : edge_index.edge ∈ [Edge.A, Edge.B, Edge.C]) :
    ∃ p0 p1 p2 p3 s', quad_points c vg eg edge_index s = ([p0, p1, p2, p3], s') ∧
      compute_quad c vg eg edge_index s =
        { s' with faces := s'.faces ++
          (if ∃ v, vg.get edge_index.index = some v ∧ v < 0
           then [(p3, p2, p1), (p1, p0, p3)]
           else [(p0, p1, p2), (p2, p3, p0)]) } := by
  obtain ⟨e, i⟩ := edge_index
  simp only [List.mem_cons, List.mem_singleton] at hbase
  have hquad : ∃ p0 p1 p2 p3 s',
      quad_points c vg eg ⟨e, i⟩ s = ([p0, p1, p2, p3], s') := by
    rcases hbase with rfl | rfl | h
    · exact ⟨_, _, _, _, _, rfl⟩
    · exact ⟨_, _, _, _, _, rfl⟩
    · rcases h with rfl | h
      · exact ⟨_, _, _, _, _, rfl⟩
      · exact absurd h (by simp)
  obtain ⟨p0, p1, p2, p3, s', hqp⟩ := hquad
  refine ⟨p0, p1, p2, p3, s', hqp, ?_⟩
  simp only [compute_quad, hqp]
  rcases hv : vg.get (⟨e, i⟩ : EdgeIndex).index with _ | v
  · simp [List.getD]
  · by_cases hneg : v < 0
    · simp [List.getD, hneg]
    · simp [List.getD, hneg]

/-- Context for the C5 witness: a one-entry configuration table (the edge-set
containing only edge `A`). -/
def ctxC5 : Ctx := { ctxW with cellConfigs := fun _ => [1] }

/-- Witness for C5: a fresh lookup on an empty state appends vertex index 0, and
looking the same cluster up again changes nothing. -/
theorem vertex_positioning_witness :
    (lookup_cell_point ctxC5 [] [] Edge.A ⟨0, 0, 0⟩ ⟨[], [], [], 0, 0⟩).1 = 0 ∧
    lookup_cell_point ctxC5 [] [] Edge.A ⟨0, 0, 0⟩
        ((lookup_cell_point ctxC5 [] [] Edge.A ⟨0, 0, 0⟩ ⟨[], [], [], 0, 0⟩).2) =
      lookup_cell_point ctxC5 [] [] Edge.A ⟨0, 0, 0⟩ ⟨[], [], [], 0, 0⟩ :=
  ⟨((vertex_positioning ctxC5 [] [] Edge.A ⟨0, 0, 0⟩ ⟨[], [], [], 0, 0⟩).2.2.1 rfl).1,
   (vertex_positioning ctxC5 [] [] Edge.A ⟨0, 0, 0⟩ ⟨[], [], [], 0, 0⟩).2.2.2⟩

/-- Witness for C6: the quad for edge `A` at cell `(1,1,1)` on an empty state. -/
theorem quad_orientation_witness :
    ∃ p0 p1 p2 p3 s',
      quad_points ctxW [] [] ⟨Edge.A, ⟨1, 1, 1⟩⟩ ⟨[], [], [], 0, 0⟩ =
        ([p0, p1, p2, p3], s') ∧
      compute_quad ctxW [] [] ⟨Edge.A, ⟨1, 1, 1⟩⟩ ⟨[], [], [], 0, 0⟩ =
        { s' with faces := s'.faces ++
          (if ∃ v, VGrid.get [] (⟨Edge.A, ⟨1, 1, 1⟩⟩ : EdgeIndex).index = some v ∧ v < 0
           then [(p3, p2, p1), (p1, p0, p3)]
           else [(p0, p1, p2), (p2, p3, p0)]) } :=
  quad_orientation ctxW [] [] ⟨Edge.A, ⟨1, 1, 1⟩⟩ ⟨[], [], [], 0, 0⟩ (by simp)

/-! ## Hierarchical QEF solve (claim C8) -/

/-- A cluster vertex as the hierarchical solver sees it: its children (indices
into the layer below) and the error that solving its QEF yields (the value the
external `Qef::solve` collaborator would compute). -/
structure SVertex where
  children : List ℕ
  err : ℚ

instance : Inhabited SVertex := ⟨⟨[], 0⟩⟩

/-- `recursively_solve_qefs`: the source splits the last (top) layer off a
bottom-first stack; here the stack argument is top-first, which is the same
traversal.  Instead of mutating `qef.error` in place, the embedding returns the
ordered list of `(layer, index)` pairs whose QEFs get solved; the layer tag is
the number of remaining layers below, matching the source's
`remaining_layers.len()`.  The source's `debug_assert!(qef.error.is_nan())`
(never solve twice) is the `Nodup` statement of `qef_single_solve`. -/
def recursively_solve_qefs (thr : ℚ) : List (List SVertex) → ℕ → List (ℕ × ℕ)
  | [], _ => []
  | top_layer :: remaining_layers, index_in_layer =>
    let vertex := top_layer.getD index_in_layer default
    (remaining_layers.length, index_in_layer) ::
      (if |vertex.err| > thr then
        (vertex.children.map
          (fun ch => recursively_solve_qefs thr remaining_layers ch)).join
      else [])

/-- `solve_qefs`: start a recursive solve from every vertex of the top layer of
the (bottom-first) stack. -/
def solve_qefs (thr : ℚ) (vertex_stack : List (List SVertex)) : List (ℕ × ℕ) :=
  match vertex_stack.getLast? with
  | none => []
  | some top_layer =>
    ((List.range top_layer.length).map
      (fun i => recursively_solve_qefs thr vertex_stack.reverse i)).join

/-- Well-formedness of a (top-first) vertex stack as produced by the octree
builder: children lists have no duplicates, point into the next layer down, and
are pairwise disjoint across the vertices of a layer (each vertex has at most
one parent). -/
def forest_ok : List (List SVertex) → Prop
  | [] => True
  | top :: rest =>
    ((∀ v ∈ top, v.children.Nodup ∧ ∀ ch ∈ v.children, ch < (rest.headD []).length) ∧
      ∀ i j, i < top.length → j < top.length → i ≠ j →
        ∀ ch, ch ∈ (top.getD i default).children →
          ch ∈ (top.getD j default).children → False) ∧
    forest_ok rest

theorem rsolve_layer_lt (thr : ℚ) :
    ∀ (stack : List (List SVertex)) (i : ℕ) (x : ℕ × ℕ),
      x ∈ recursively_solve_qefs thr stack i → x.1 < stack.length := by
  intro stack
  induction stack with
  | nil => intro i x hx; simp [recursively_solve_qefs] at hx
  | cons top rest ih =>
    intro i x hx
    simp only [recursively_solve_qefs, List.mem_cons] at hx
    rcases hx with rfl | hx
    · simp
    · split at hx
      · obtain ⟨l, hl, hx⟩ := List.mem_join.mp hx
        obtain ⟨ch, _, rfl⟩ := List.mem_map.mp hl
        exact lt_trans (ih ch x hx) (by simp)
      · simp at hx

theorem rsolve_disjoint (thr : ℚ) :
    ∀ (stack : List (List SVertex)), forest_ok stack →
      ∀ i j, i ≠ j → ∀ x, x ∈ recursively_solve_qefs thr stack i →
        x ∈ recursively_solve_qefs thr stack j → False := by
  intro stack
  induction stack with
  | nil => intro _ i j _ x hx; simp [recursively_solve_qefs] at hx
  | cons top rest ih =>
    rintro ⟨⟨hnodup, hdisj⟩, hrest⟩ i j hij x hxi hxj
    simp only [recursively_solve_qefs, List.mem_cons] at hxi hxj
    -- elements of the tails live in strictly lower layers
    have htail : ∀ k (y : ℕ × ℕ),
        (y ∈ if |(top.getD k default).err| > thr then
          ((top.getD k default).children.map
            (fun ch => recursively_solve_qefs thr rest ch)).join else []) →
        y.1 < rest.length := by
      intro k y hy
      split at hy
      · obtain ⟨l, hl, hy⟩ := List.mem_join.mp hy
        obtain ⟨ch, _, rfl⟩ := List.mem_map.mp hl
        exact rsolve_layer_lt thr rest ch y hy
      · simp at hy
    rcases hxi with rfl | hxi
    · rcases hxj with hj | hxj
      · exact hij (congrArg Prod.snd hj)
      · exact absurd (htail j _ hxj) (by simp)
    · rcases hxj with rfl | hxj
      · exact absurd (htail i _ hxi) (by simp)
      · -- both in the descendant joins
        split at hxi
        · split at hxj
          · obtain ⟨l, hl, hx1⟩ := List.mem_join.mp hxi
            obtain ⟨ch, hch, rfl⟩ := List.mem_map.mp hl
            obtain ⟨l', hl', hx2⟩ := List.mem_join.mp hxj
            obtain ⟨ch', hch', rfl⟩ := List.mem_map.mp hl'
            by_cases hvalid : i < top.length ∧ j < top.length
            · have hne : ch ≠ ch' := by
                intro h
                subst h
                exact hdisj i j hvalid.1 hvalid.2 hij ch hch hch'
              exact ih hrest ch ch' hne x hx1 hx2
            · -- an out-of-range index has the default vertex: no children
              rcases not_and_or.mp hvalid with hv | hv
              · rw [List.getD_eq_default _ _ (by omega)] at hch
                simp [default] at hch
              · rw [List.getD_eq_default _ _ (by omega)] at hch'
                simp [default] at hch'
          · simp at hxj
        · simp at hxi

theorem rsolve_nodup (thr : ℚ) :
    ∀ (stack : List (List SVertex)), forest_ok stack →
      ∀ i, (recursively_solve_qefs thr stack i).Nodup := by
  intro stack
  induction stack with
  | nil => intro _ i; simp [recursively_solve_qefs]
  | cons top rest ih =>
    rintro ⟨⟨hnodup, hdisj⟩, hrest⟩ i
    simp only [recursively_solve_qefs]
    rw [List.nodup_cons]
    constructor
    · intro hmem
      have : ((rest.length : ℕ), i).1 < rest.length := by
        split at hmem
        · obtain ⟨l, hl, hy⟩ := List.mem_join.mp hmem
          obtain ⟨ch, _, rfl⟩ := List.mem_map.mp hl
          exact rsolve_layer_lt thr rest ch _ hy
        · simp at hmem
      simp at this
    · split
      · rw [List.nodup_join]
        constructor
        · intro l hl
          obtain ⟨ch, _, rfl⟩ := List.mem_map.mp hl
          exact ih hrest ch
        · rw [List.pairwise_map]
          have hchn : ((top.getD i default).children).Nodup := by
            by_cases hv : i < top.length
            · have hmem : top.getD i default ∈ top := by
                rw [List.getD_eq_getElem top default hv]
                exact List.getElem_mem hv
              exact (hnodup _ hmem).1
            · rw [List.getD_eq_default _ _ (by omega)]
              exact List.nodup_nil
          exact List.Pairwise.imp
            (fun hab x hx1 hx2 => rsolve_disjoint thr rest hrest _ _ hab x hx1 hx2)
            hchn
      · simp

/-- C8: hierarchical QEF solve.  (i) Under the well-formedness of the stack that
the octree builder guarantees (children point one layer down, no duplicates, at
most one parent per vertex), the full solve started by `solve_qefs` never visits
the same `(layer, index)` twice — the source's `debug_assert!(qef.error.is_nan())`
can never fail.  (ii) A visited vertex's children are descended into exactly when
the absolute value of its solved error exceeds the threshold. -/
theorem qef_single_solve (thr : ℚ) (vertex_stack : List (List SVertex))
    (hok : forest_ok vertex_stack.reverse) :
    (solve_qefs thr vertex_stack).Nodup ∧
    ∀ (top : List SVertex) (rest : List (List SVertex)) (i : ℕ),
      (¬ |(top.getD i default).err| > thr →
        recursively_solve_qefs thr (top :: rest) i = [(rest.length, i)]) ∧
      (|(top.getD i default).err| > thr →
        recursively_solve_qefs thr (top :: rest) i =
          (rest.length, i) :: ((top.getD i default).children.map
            (fun ch => recursively_solve_qefs thr rest ch)).join) := by
  constructor
  · unfold solve_qefs
    rcases hlast : vertex_stack.getLast? with _ | top_layer
    · simp
    · rw [List.nodup_join]
      constructor
      · intro l hl
        obtain ⟨k, _, rfl⟩ := List.mem_map.mp hl
        exact rsolve_nodup thr _ hok k
      · rw [List.pairwise_map]
        exact List.Pairwise.imp
          (fun hab x h1 h2 => rsolve_disjoint thr _ hok _ _ hab x h1 h2)
          (List.nodup_range _)
  · intro top rest i
    constructor
    · intro h
      simp only [recursively_solve_qefs]
      rw [if_neg h]
    · intro h
      simp only [recursively_solve_qefs]
      rw [if_pos h]

/-- A two-layer stack (bottom-first): two leaves under one root whose error
exceeds the threshold. -/
def stackW : List (List SVertex) := [[⟨[], 0⟩, ⟨[], 0⟩], [⟨[0, 1], 5⟩]]

/-- Witness for C8 on `stackW` with threshold 1: no `(layer, index)` pair is
solved twice. -/
theorem qef_single_solve_witness : (solve_qefs 1 stackW).Nodup :=
  (qef_single_solve 1 stackW
    (by
      refine ⟨⟨?_, ?_⟩, ⟨?_, ?_⟩, trivial⟩
      · intro v hv
        rcases List.mem_singleton.mp hv with rfl
        refine ⟨by simp, ?_⟩
        intro ch hch
        rcases List.mem_cons.mp hch with rfl | hch'
        · simp [stackW]
        · rcases List.mem_singleton.mp hch' with rfl
          simp [stackW]
      · intro i j hi hj hij
        simp [stackW] at hi hj
        omega
      · intro v hv
        rcases List.mem_cons.mp hv with rfl | hv'
        · simp
        · rcases List.mem_singleton.mp hv' with rfl
          simp
      · intro i j hi hj hij ch hch
        simp [stackW] at hi hj
        interval_cases i <;> simp [List.getD] at hch)).1

/-! ## Octree layers: `subsample_octtree` (claims C7, C9) -/

/-- A cluster vertex of an octree layer (`struct Vertex` of the source).  The
`qef` accumulator is omitted: none of the octree claims concern its value and it
influences neither neighbours nor layer sizes.  Neighbour entries are the
`VarIndex::Index` local indices the source uses after each layer is finished. -/
structure OVertex where
  index : Idx3
  neighbors : Fin 6 → List ℕ
  parent : Option ℕ
  children : List ℕ

instance : Inhabited OVertex := ⟨⟨⟨0, 0, 0⟩, fun _ => [], none, []⟩⟩

/-- Face `2k+b` paired with face `2k+(1-b)` (the source's `np ^ 1`). -/
def flipFace : Fin 6 → Fin 6
  | 0 => 1 | 1 => 0 | 2 => 3 | 3 => 2 | 4 => 5 | 5 => 4

/-- The axis of face `2k+b` (the source's `dim`). -/
def faceAxis : Fin 6 → Fin 3
  | 0 => 0 | 1 => 0 | 2 => 1 | 3 => 1 | 4 => 2 | 5 => 2

/-- The side bit of face `2k+b` (`b`; `1` is the positive direction). -/
def faceBit : Fin 6 → ℕ
  | 0 => 0 | 1 => 1 | 2 => 0 | 3 => 1 | 4 => 0 | 5 => 1

/-- The index relation between a vertex and its face-`2k+b` neighbour: the
neighbour is one step up along axis `k` when `b = 1`, one step down when
`b = 0` (stated additively to avoid `ℕ` subtraction). -/
def adjacentIdx (k : Fin 3) (b : ℕ) (v u : Idx3) : Prop :=
  if b = 1 then u = v.bump k else v = u.bump k

/-- Every neighbour entry of a layer names a valid vertex of the same layer that
is axially adjacent in the direction of its face. -/
def layerAdj (layer : List OVertex) : Prop :=
  ∀ vi, vi < layer.length → ∀ f : Fin 6, ∀ u ∈ (layer.getD vi default).neighbors f,
    u < layer.length ∧
    adjacentIdx (faceAxis f) (faceBit f) (layer.getD vi default).index
      (layer.getD u default).index

/-- The claim's symmetry: `u ∈ v.neighbors[2k+b]` implies
`v ∈ u.neighbors[2k+(1-b)]`. -/
def layerSym (layer : List OVertex) : Prop :=
  ∀ vi, vi < layer.length → ∀ f : Fin 6, ∀ u ∈ (layer.getD vi default).neighbors f,
    vi ∈ (layer.getD u default).neighbors (flipFace f)

/-- `push`-with-`contains`-check of `add_child_to_parent`'s inner loop. -/
def pushNew (l : List ℕ) (xs : List ℕ) : List ℕ :=
  xs.foldl (fun acc x => if x ∈ acc then acc else acc ++ [x]) l

/-- `add_child_to_parent` (without the QEF merge): for each axis the child
contributes its neighbours along its outward face `2*dim + (index[dim] & 1)`. -/
def add_child_to_parent (child : OVertex) (parent : OVertex) : OVertex :=
  { parent with neighbors := fun f =>
      (if child.index.get (faceAxis f) % 2 = faceBit f then
        pushNew (parent.neighbors f) (child.neighbors f)
      else parent.neighbors f) }

/-- The step relation of `add_connected_vertices_in_subcell`: from `j` to a
neighbour `t` (any of the six direction lists) lying in super-cell `h`. -/
def subcellStep (base : List OVertex) (h : Idx3) (j t : ℕ) : Prop :=
  (∃ f : Fin 6, t ∈ (base.getD j default).neighbors f) ∧
    half_index (base.getD t default).index = h

/-- The same-step targets of one vertex, as a finite set. -/
def stepTargets (base : List OVertex) (h : Idx3) (j : ℕ) : Finset ℕ :=
  ((((List.finRange 6).map (fun f => (base.getD j default).neighbors f)).join).filter
    (fun t => decide (half_index (base.getD t default).index = h))).toFinset

/-- One round of breadth-first expansion of the subcell component. -/
def expandSubcell (base : List OVertex) (h : Idx3) (s : Finset ℕ) : Finset ℕ :=
  s ∪ s.biUnion (fun j => stepTargets base h j)

def compIter (base : List OVertex) (h : Idx3) : ℕ → Finset ℕ → Finset ℕ
  | 0, s => s
  | k+1, s => compIter base h k (expandSubcell base h s)

/-- The set collected by `neighbor_set.insert(i)` followed by
`add_connected_vertices_in_subcell`: the closure of `{i}` under the
same-super-cell neighbour step.  The source computes it depth-first through a
`HashSet`; the embedding saturates the same step relation (`base.length` rounds
suffice), which produces the same set. -/
def subcellComp (base : List OVertex) (i : ℕ) : Finset ℕ :=
  compIter base (half_index (base.getD i default).index) base.length {i}

/-- The component as a list — the source iterates the `HashSet` in unspecified
order; ascending order is fixed as the canonical one. -/
def compList (base : List OVertex) (i : ℕ) : List ℕ :=
  (subcellComp base i).sort (· ≤ ·)

/-- Building the parent cluster from its member list (`parent.children.push`
followed by `add_child_to_parent`, seeded with the half index of the seed
vertex, empty neighbours and no parent). -/
def mkParent (base : List OVertex) (i : ℕ) (comp : List ℕ) : OVertex :=
  comp.foldl (fun parent ci =>
      add_child_to_parent (base.getD ci default)
        { parent with children := parent.children ++ [ci] })
    { index := half_index (base.getD i default).index,
      neighbors := fun _ => [], parent := none, children := [] }

/-- One iteration of `subsample_octtree`'s main loop at base index `i`: if `i`
is still unparented, collect its subcell component, build the parent, record the
parent index in every member's parent slot, and push the parent. -/
def subsampleStep (base : List OVertex) (st : List (Option ℕ) × List OVertex)
    (i : ℕ) : List (Option ℕ) × List OVertex :=
  if st.1.getD i none = none then
    ((compList base i).foldl (fun pars j => pars.set j (some st.2.length)) st.1,
     st.2 ++ [mkParent base i (compList base i)])
  else st

/-- Rewriting a parent's neighbour entries from base-layer indices to
parent-layer indices via the recorded parent pointers (the source unwraps the
`Option`; a missing parent — impossible after the loop — maps to `0`). -/
def rewrite_to_parents (pars : List (Option ℕ)) (v : OVertex) : OVertex :=
  { v with neighbors := fun f =>
      (v.neighbors f).map (fun j => (pars.getD j none).getD 0) }

/-- `subsample_octtree` from the source: one simplification pass producing the
next-coarser layer. -/
def subsample_octtree (base : List OVertex) : List OVertex :=
  let st := (List.range base.length).foldl (subsampleStep base)
    (base.map (fun v => v.parent), [])
  st.2.map (rewrite_to_parents st.1)

theorem default_OVertex_neighbors (f : Fin 6) : (default : OVertex).neighbors f = [] :=
  rfl

theorem mem_stepTargets {base : List OVertex} {h : Idx3} {j t : ℕ} :
    t ∈ stepTargets base h j ↔ subcellStep base h j t := by
  unfold stepTargets subcellStep
  simp only [List.mem_toFinset, List.mem_filter, List.mem_join, List.mem_map,
    List.mem_finRange, decide_eq_true_eq]
  constructor
  · rintro ⟨⟨l, ⟨f, _, rfl⟩, hl⟩, hh⟩
    exact ⟨⟨f, hl⟩, hh⟩
  · rintro ⟨⟨f, hf⟩, hh⟩
    exact ⟨⟨_, ⟨f, trivial, rfl⟩, hf⟩, hh⟩

theorem subset_expand (base : List OVertex) (h : Idx3) (s : Finset ℕ) :
    s ⊆ expandSubcell base h s :=
  Finset.subset_union_left

theorem subset_compIter (base : List OVertex) (h : Idx3) :
    ∀ k (s : Finset ℕ), s ⊆ compIter base h k s := by
  intro k
  induction k with
  | zero => intro s; exact Finset.Subset.refl s
  | succ k ih =>
    intro s
    exact Finset.Subset.trans (subset_expand base h s) (ih (expandSubcell base h s))

theorem compIter_of_fix {base : List OVertex} {h : Idx3} {s : Finset ℕ}
    (hfix : expandSubcell base h s = s) : ∀ k, compIter base h k s = s := by
  intro k
  induction k with
  | zero => rfl
  | succ k ih =>
    show compIter base h k (expandSubcell base h s) = s
    rw [hfix]
    exact ih

theorem compIter_induct (base : List OVertex) (h : Idx3) (P : Finset ℕ → Prop)
    (hP : ∀ s, P s → P (expandSubcell base h s)) :
    ∀ k s, P s → P (compIter base h k s) := by
  intro k
  induction k with
  | zero => intro s hs; exact hs
  | succ k ih => intro s hs; exact ih _ (hP s hs)

theorem mem_subcellComp_self (base : List OVertex) (i : ℕ) : i ∈ subcellComp base i :=
  subset_compIter base _ _ {i} (Finset.mem_singleton_self i)

theorem subcellComp_half (base : List OVertex) (i : ℕ) :
    ∀ j ∈ subcellComp base i,
      half_index ((base.getD j default).index) =
        half_index ((base.getD i default).index) := by
  have := compIter_induct base (half_index ((base.getD i default).index))
    (fun s => ∀ j ∈ s, half_index ((base.getD j default).index) =
      half_index ((base.getD i default).index))
    (by
      intro s hs j hj
      rcases Finset.mem_union.mp hj with hj | hj
      · exact hs j hj
      · obtain ⟨t, _, ht⟩ := Finset.mem_biUnion.mp hj
        exact (mem_stepTargets.mp ht).2)
    base.length {i}
    (by
      intro j hj
      rw [Finset.mem_singleton.mp hj])
  exact this

theorem stepTargets_subset {base : List OVertex} (hadj : layerAdj base) (h : Idx3)
    (j : ℕ) : stepTargets base h j ⊆ Finset.range base.length := by
  intro t ht
  obtain ⟨⟨f, hf⟩, _⟩ := mem_stepTargets.mp ht
  by_cases hj : j < base.length
  · exact Finset.mem_range.mpr (hadj j hj f t hf).1
  · rw [List.getD_eq_default _ _ (by omega), default_OVertex_neighbors] at hf
    exact absurd hf (List.not_mem_nil t)

theorem subcellComp_subset_range {base : List OVertex} (hadj : layerAdj base)
    {i : ℕ} (hi : i < base.length) :
    subcellComp base i ⊆ Finset.range base.length := by
  have := compIter_induct base (half_index ((base.getD i default).index))
    (fun s => s ⊆ Finset.range base.length)
    (by
      intro s hs x hx
      rcases Finset.mem_union.mp hx with hx | hx
      · exact hs hx
      · obtain ⟨j, _, hj⟩ := Finset.mem_biUnion.mp hx
        exact stepTargets_subset hadj _ j hj)
    base.length {i}
    (by
      intro x hx
      rw [Finset.mem_singleton.mp hx]
      exact Finset.mem_range.mpr hi)
  exact this

theorem compIter_saturated (base : List OVertex) (h : Idx3) {n : ℕ}
    (hT : ∀ j, stepTargets base h j ⊆ Finset.range n) :
    ∀ k (s : Finset ℕ), s ⊆ Finset.range n → n < s.card + k →
      expandSubcell base h (compIter base h k s) = compIter base h k s := by
  intro k
  induction k with
  | zero =>
    intro s hs hlt
    have hcard : s.card ≤ n := by
      simpa [Finset.card_range] using Finset.card_le_card hs
    exact absurd hlt (by omega)
  | succ k ih =>
    intro s hs hlt
    show expandSubcell base h (compIter base h k (expandSubcell base h s)) = _
    by_cases hfix : expandSubcell base h s = s
    · rw [hfix, compIter_of_fix hfix, hfix]
      exact (compIter_of_fix hfix (k + 1)).symm
    · have hsub : expandSubcell base h s ⊆ Finset.range n := by
        intro x hx
        rcases Finset.mem_union.mp hx with hx | hx
        · exact hs hx
        · obtain ⟨j, _, hj⟩ := Finset.mem_biUnion.mp hx
          exact hT j hj
      have hcard : s.card < (expandSubcell base h s).card :=
        Finset.card_lt_card (Finset.ssubset_iff_subset_ne.mpr
          ⟨subset_expand base h s, fun heq => hfix heq.symm⟩)
      exact ih _ hsub (by omega)

theorem subcellComp_closed {base : List OVertex} (hadj : layerAdj base) {i : ℕ}
    (hi : i < base.length) :
    ∀ j ∈ subcellComp base i, ∀ t,
      subcellStep base (half_index ((base.getD i default).index)) j t →
      t ∈ subcellComp base i := by
  intro j hj t hstep
  have hsat := compIter_saturated base (half_index ((base.getD i default).index))
    (fun j => stepTargets_subset hadj _ j) base.length {i}
    (by
      intro x hx
      rw [Finset.mem_singleton.mp hx]
      exact Finset.mem_range.mpr hi)
    (by simp)
  have : t ∈ expandSubcell base (half_index ((base.getD i default).index))
      (subcellComp base i) := by
    apply Finset.mem_union_right
    exact Finset.mem_biUnion.mpr ⟨j, hj, mem_stepTargets.mpr hstep⟩
  rw [show expandSubcell base (half_index ((base.getD i default).index))
      (subcellComp base i) = subcellComp base i from hsat] at this
  exact this

theorem subcellComp_reach (base : List OVertex) (i : ℕ) :
    ∀ j ∈ subcellComp base i,
      Relation.ReflTransGen
        (subcellStep base (half_index ((base.getD i default).index))) i j := by
  have := compIter_induct base (half_index ((base.getD i default).index))
    (fun s => ∀ j ∈ s, Relation.ReflTransGen
      (subcellStep base (half_index ((base.getD i default).index))) i j)
    (by
      intro s hs j hj
      rcases Finset.mem_union.mp hj with hj | hj
      · exact hs j hj
      · obtain ⟨t, ht, hj⟩ := Finset.mem_biUnion.mp hj
        exact Relation.ReflTransGen.tail (hs t ht) (mem_stepTargets.mp hj))
    base.length {i}
    (by
      intro j hj
      rw [Finset.mem_singleton.mp hj])
  exact this

theorem reach_mem_subcellComp {base : List OVertex} (hadj : layerAdj base) {i : ℕ}
    (hi : i < base.length) :
    ∀ j, Relation.ReflTransGen
        (subcellStep base (half_index ((base.getD i default).index))) i j →
      j ∈ subcellComp base i := by
  intro j hreach
  induction hreach with
  | refl => exact mem_subcellComp_self base i
  | tail hab hbc ih => exact subcellComp_closed hadj hi _ ih _ hbc

theorem subcellStep_symm {base : List OVertex} (hsym : layerSym base) {h : Idx3}
    {j t : ℕ} (hj : j < base.length)
    (hhalf : half_index ((base.getD j default).index) = h)
    (hstep : subcellStep base h j t) : subcellStep base h t j := by
  obtain ⟨⟨f, hf⟩, _⟩ := hstep
  exact ⟨⟨flipFace f, hsym j hj f t hf⟩, hhalf⟩

theorem reach_rev {base : List OVertex} (hadj : layerAdj base) (hsym : layerSym base)
    {i : ℕ} (hi : i < base.length) {j : ℕ}
    (hr : Relation.ReflTransGen
      (subcellStep base (half_index ((base.getD i default).index))) i j) :
    Relation.ReflTransGen
      (subcellStep base (half_index ((base.getD i default).index))) j i := by
  induction hr with
  | refl => exact Relation.ReflTransGen.refl
  | @tail b c hab hbc ih =>
    have hb := reach_mem_subcellComp hadj hi b hab
    have hblen : b < base.length :=
      Finset.mem_range.mp (subcellComp_subset_range hadj hi hb)
    have hbhalf := subcellComp_half base i b hb
    exact Relation.ReflTransGen.head (subcellStep_symm hsym hblen hbhalf hbc) ih

theorem subcellComp_eq_of_mem {base : List OVertex} (hadj : layerAdj base)
    (hsym : layerSym base) {i j : ℕ} (hi : i < base.length)
    (hj : j ∈ subcellComp base i) : subcellComp base j = subcellComp base i := by
  have hjlen : j < base.length :=
    Finset.mem_range.mp (subcellComp_subset_range hadj hi hj)
  have hhalf := subcellComp_half base i j hj
  have hreach_ij := subcellComp_reach base i j hj
  have hreach_ji := reach_rev hadj hsym hi hreach_ij
  apply Finset.Subset.antisymm
  · intro t ht
    have hjt := subcellComp_reach base j t ht
    rw [hhalf] at hjt
    exact reach_mem_subcellComp hadj hi t (hreach_ij.trans hjt)
  · intro t ht
    have hit := subcellComp_reach base i t ht
    apply reach_mem_subcellComp hadj hjlen
    rw [hhalf]
    exact hreach_ji.trans hit

/-! ### The subsampling loop: parent bookkeeping and layer size -/

/-- Number of still-unparented slots in the parent-pointer list. -/
def noneCount (pars : List (Option ℕ)) : ℕ :=
  ((Finset.range pars.length).filter (fun j => pars.getD j none = none)).card

theorem getD_set_ne_none (pars : List (Option ℕ)) {j k : ℕ} (v : Option ℕ)
    (h : j ≠ k) : (pars.set j v).getD k none = pars.getD k none := by
  simp [List.getD_eq_getElem?_getD, List.getElem?_set_ne h]

theorem noneCount_set_le (pars : List (Option ℕ)) (j p : ℕ) :
    noneCount (pars.set j (some p)) ≤ noneCount pars := by
  by_cases hj : j < pars.length
  · apply Finset.card_le_card
    intro k hk
    simp only [noneCount, Finset.mem_filter, Finset.mem_range, List.length_set] at hk ⊢
    refine ⟨hk.1, ?_⟩
    rcases eq_or_ne j k with rfl | hne
    · have := hk.2
      rw [List.getD_eq_getElem?_getD, List.getElem?_set_self hj] at this
      simp at this
    · rw [← getD_set_ne_none pars (some p) hne]
      exact hk.2
  · rw [List.set_eq_of_length_le (by omega)]

theorem noneCount_set_lt (pars : List (Option ℕ)) {j : ℕ} (p : ℕ)
    (hj : j < pars.length) (hn : pars.getD j none = none) :
    noneCount (pars.set j (some p)) < noneCount pars := by
  apply Finset.card_lt_card
  rw [Finset.ssubset_iff_of_subset]
  · refine ⟨j, ?_, ?_⟩
    · simp only [noneCount, Finset.mem_filter, Finset.mem_range]
      exact ⟨hj, hn⟩
    · simp only [noneCount, Finset.mem_filter, Finset.mem_range, List.length_set]
      intro h
      have := h.2
      rw [List.getD_eq_getElem?_getD, List.getElem?_set_self hj] at this
      simp at this
  · intro k hk
    simp only [noneCount, Finset.mem_filter, Finset.mem_range, List.length_set] at hk ⊢
    refine ⟨hk.1, ?_⟩
    rcases eq_or_ne j k with rfl | hne
    · have := hk.2
      rw [List.getD_eq_getElem?_getD, List.getElem?_set_self hj] at this
      simp at this
    · rw [← getD_set_ne_none pars (some p) hne]
      exact hk.2

theorem length_foldl_set (comp : List ℕ) (p : ℕ) :
    ∀ pars : List (Option ℕ),
      (comp.foldl (fun pars j => pars.set j (some p)) pars).length = pars.length := by
  induction comp with
  | nil => intro pars; rfl
  | cons a rest ih =>
    intro pars
    rw [List.foldl_cons, ih (pars.set a (some p)), List.length_set]

theorem noneCount_foldl_set_le (comp : List ℕ) (p : ℕ) :
    ∀ pars : List (Option ℕ),
      noneCount (comp.foldl (fun pars j => pars.set j (some p)) pars) ≤
        noneCount pars := by
  induction comp with
  | nil => intro pars; exact le_refl _
  | cons a rest ih =>
    intro pars
    exact le_trans (ih (pars.set a (some p))) (noneCount_set_le pars a p)

theorem noneCount_foldl_set_lt (comp : List ℕ) (p : ℕ) {j : ℕ} (hj : j ∈ comp) :
    ∀ pars : List (Option ℕ), j < pars.length → pars.getD j none = none →
      noneCount (comp.foldl (fun pars j => pars.set j (some p)) pars) <
        noneCount pars := by
  induction comp with
  | nil => exact absurd hj (List.not_mem_nil j)
  | cons a rest ih =>
    intro pars hlen hnone
    rw [List.foldl_cons]
    rcases eq_or_ne a j with rfl | hne
    · exact lt_of_le_of_lt (noneCount_foldl_set_le rest p _)
        (noneCount_set_lt pars p hlen hnone)
    · have hjr : j ∈ rest := by
        rcases List.mem_cons.mp hj with rfl | hjr
        · exact absurd rfl hne
        · exact hjr
      have := ih hjr (pars.set a (some p))
        (by rw [List.length_set]; exact hlen)
        (by rw [getD_set_ne_none pars (some p) hne]; exact hnone)
      exact lt_of_lt_of_le this (noneCount_set_le pars a p)

theorem subsampleStep_pars_length (base : List OVertex)
    (st : List (Option ℕ) × List OVertex) (i : ℕ) :
    (subsampleStep base st i).1.length = st.1.length := by
  unfold subsampleStep
  split
  · exact length_foldl_set _ _ _
  · rfl

theorem mem_compList_self (base : List OVertex) (i : ℕ) : i ∈ compList base i := by
  unfold compList
  rw [Finset.mem_sort]
  exact mem_subcellComp_self base i

theorem subsampleStep_measure (base : List OVertex)
    (st : List (Option ℕ) × List OVertex) {i : ℕ} (hi : i < st.1.length) :
    (subsampleStep base st i).2.length + noneCount (subsampleStep base st i).1 ≤
      st.2.length + noneCount st.1 := by
  unfold subsampleStep
  split
  · next hnone =>
    have hlt := noneCount_foldl_set_lt (compList base i) st.2.length
      (mem_compList_self base i) st.1 hi hnone
    simp only [List.length_append, List.length_cons, List.length_nil]
    omega
  · exact le_refl _

theorem subsample_loop_measure (base : List OVertex) :
    ∀ (l : List ℕ) (st : List (Option ℕ) × List OVertex),
      (∀ i ∈ l, i < st.1.length) →
      (l.foldl (subsampleStep base) st).2.length +
          noneCount (l.foldl (subsampleStep base) st).1 ≤
        st.2.length + noneCount st.1 := by
  intro l
  induction l with
  | nil => intro st _; exact le_refl _
  | cons a rest ih =>
    intro st hst
    rw [List.foldl_cons]
    refine le_trans (ih (subsampleStep base st a) ?_) ?_
    · intro i hi
      rw [subsampleStep_pars_length]
      exact hst i (List.mem_cons_of_mem a hi)
    · exact subsampleStep_measure base st (hst a (List.mem_cons_self a rest))

theorem noneCount_le_length (pars : List (Option ℕ)) :
    noneCount pars ≤ pars.length := by
  unfold noneCount
  calc ((Finset.range pars.length).filter _).card
      ≤ (Finset.range pars.length).card := Finset.card_filter_le _ _
    _ = pars.length := Finset.card_range _

/-- C9, part 1: no simplification pass grows the layer. -/
theorem subsample_len_le (base : List OVertex) :
    (subsample_octtree base).length ≤ base.length := by
  unfold subsample_octtree
  rw [List.length_map]
  have hmeas := subsample_loop_measure base (List.range base.length)
    (base.map (fun v => v.parent), [])
    (by
      intro i hi
      rw [List.length_map]
      exact List.mem_range.mp hi)
  have hnc : noneCount (base.map (fun v => v.parent)) ≤ base.length := by
    have := noneCount_le_length (base.map (fun v => v.parent))
    rwa [List.length_map] at this
  simp only [List.length_nil, zero_add] at hmeas
  omega

/-- The simplification loop of `try_tesselate`: keep subsampling until a layer
has the same length as its predecessor (bottom-first list of layers). -/
def buildStack (layer : List OVertex) : List (List OVertex) :=
  if h : (subsample_octtree layer).length = layer.length then [layer]
  else layer :: buildStack (subsample_octtree layer)
termination_by layer.length
decreasing_by
  have := subsample_len_le layer
  omega

/-! ### Index halving and parent construction -/

theorem half_bump {x : Idx3} {k : Fin 3} (h : x.get k % 2 = 1) :
    half_index (x.bump k) = (half_index x).bump k := by
  fin_cases k
  · revert h
    show x.get 0 % 2 = 1 → half_index (x.bump 0) = (half_index x).bump 0
    intro h
    simp only [Idx3.get] at h
    simp only [Idx3.bump, half_index, Idx3.mk.injEq, and_true, true_and]
    omega
  · revert h
    show x.get 1 % 2 = 1 → half_index (x.bump 1) = (half_index x).bump 1
    intro h
    simp only [Idx3.get] at h
    simp only [Idx3.bump, half_index, Idx3.mk.injEq, and_true, true_and]
    omega
  · revert h
    show x.get 2 % 2 = 1 → half_index (x.bump 2) = (half_index x).bump 2
    intro h
    simp only [Idx3.get] at h
    simp only [Idx3.bump, half_index, Idx3.mk.injEq, and_true, true_and]
    omega

theorem getD_map_lt {α β : Type} (f : α → β) (l : List α) {i : ℕ}
    (h : i < l.length) (d : β) (d' : α) : (l.map f).getD i d = f (l.getD i d') := by
  simp [List.getD_eq_getElem?_getD, List.getElem?_eq_getElem h,
    List.getElem?_eq_getElem (show i < (l.map f).length by simpa using h)]

theorem getD_append_left {α : Type} (l l' : List α) {p : ℕ} (h : p < l.length)
    (d : α) : (l ++ l').getD p d = l.getD p d := by
  simp [List.getD_eq_getElem?_getD, List.getElem?_append_left h]

theorem getD_append_self {α : Type} (l : List α) (a d : α) :
    (l ++ [a]).getD l.length d = a := by
  simp [List.getD_eq_getElem?_getD, List.getElem?_append_right (le_refl l.length)]

theorem getD_foldl_set_not_mem (comp : List ℕ) (p : ℕ) {j : ℕ} (hj : j ∉ comp) :
    ∀ pars : List (Option ℕ),
      (comp.foldl (fun pars k => pars.set k (some p)) pars).getD j none =
        pars.getD j none := by
  induction comp with
  | nil => intro pars; rfl
  | cons a rest ih =>
    intro pars
    rw [List.foldl_cons, ih (fun hr => hj (List.mem_cons_of_mem a hr)),
      getD_set_ne_none pars (some p)
        (fun he => hj (by rw [← he]; exact List.mem_cons_self a rest))]

theorem getD_foldl_set_mem (comp : List ℕ) (p : ℕ) :
    ∀ (pars : List (Option ℕ)) (j : ℕ), j ∈ comp → j < pars.length →
      (comp.foldl (fun pars k => pars.set k (some p)) pars).getD j none = some p := by
  induction comp with
  | nil => intro pars j hj; exact absurd hj (List.not_mem_nil j)
  | cons a rest ih =>
    intro pars j hj hlen
    rw [List.foldl_cons]
    by_cases hr : j ∈ rest
    · exact ih _ j hr (by rw [List.length_set]; exact hlen)
    · have hja : j = a := by
        rcases List.mem_cons.mp hj with h | h
        · exact h
        · exact absurd h hr
      subst hja
      rw [getD_foldl_set_not_mem rest p hr, List.getD_eq_getElem?_getD,
        List.getElem?_set_self hlen]
      rfl

theorem mem_pushNew {u : ℕ} : ∀ (xs l : List ℕ), u ∈ pushNew l xs ↔ u ∈ l ∨ u ∈ xs := by
  have hsub : ∀ (xs l : List ℕ), u ∈ l → u ∈ pushNew l xs := by
    intro xs
    induction xs with
    | nil => intro l hl; exact hl
    | cons a rest ih =>
      intro l hl
      apply ih
      by_cases ha : a ∈ l <;> simp [pushNew, List.foldl_cons, ha, hl]
  intro xs
  induction xs with
  | nil =>
    intro l
    simp [pushNew]
  | cons a rest ih =>
    intro l
    constructor
    · intro hm
      have : u ∈ (if a ∈ l then l else l ++ [a]) ∨ u ∈ rest := by
        refine (ih _).mp ?_
        simpa [pushNew, List.foldl_cons] using hm
      rcases this with hm | hm
      · by_cases ha : a ∈ l
        · simp only [ha, if_true] at hm
          exact Or.inl hm
        · simp only [ha, if_false, List.mem_append, List.mem_singleton] at hm
          rcases hm with hm | rfl
          · exact Or.inl hm
          · exact Or.inr (List.mem_cons_self u rest)
      · exact Or.inr (List.mem_cons_of_mem a hm)
    · intro hm
      rcases hm with hm | hm
      · exact hsub _ _ hm
      · rcases List.mem_cons.mp hm with rfl | hm
        · show u ∈ pushNew (if u ∈ l then l else l ++ [u]) rest
          apply hsub
          by_cases hu : u ∈ l <;> simp [hu]
        · show u ∈ pushNew (if a ∈ l then l else l ++ [a]) rest
          exact (ih _).mpr (Or.inr hm)

theorem mkParent_foldl_fields (base : List OVertex) :
    ∀ (comp : List ℕ) (p : OVertex),
      ((comp.foldl (fun parent ci =>
          add_child_to_parent (base.getD ci default)
            { parent with children := parent.children ++ [ci] }) p).index = p.index ∧
       (comp.foldl (fun parent ci =>
          add_child_to_parent (base.getD ci default)
            { parent with children := parent.children ++ [ci] }) p).parent = p.parent) := by
  intro comp
  induction comp with
  | nil => intro p; exact ⟨rfl, rfl⟩
  | cons a rest ih => intro p; exact ih _

theorem mkParent_index (base : List OVertex) (i : ℕ) (comp : List ℕ) :
    (mkParent base i comp).index = half_index ((base.getD i default).index) :=
  (mkParent_foldl_fields base comp _).1

theorem mkParent_parent (base : List OVertex) (i : ℕ) (comp : List ℕ) :
    (mkParent base i comp).parent = none :=
  (mkParent_foldl_fields base comp _).2

theorem mem_mkParent_foldl_neighbors (base : List OVertex) {u : ℕ} {f : Fin 6} :
    ∀ (comp : List ℕ) (p : OVertex),
      u ∈ ((comp.foldl (fun parent ci =>
          add_child_to_parent (base.getD ci default)
            { parent with children := parent.children ++ [ci] }) p).neighbors f) ↔
        u ∈ p.neighbors f ∨ ∃ c ∈ comp,
          ((base.getD c default).index.get (faceAxis f)) % 2 = faceBit f ∧
            u ∈ (base.getD c default).neighbors f := by
  intro comp
  induction comp with
  | nil =>
    intro p
    simp
  | cons a rest ih =>
    intro p
    rw [List.foldl_cons, ih]
    constructor
    · rintro (hm | ⟨c, hc, hcond, hmem⟩)
      · rw [show (add_child_to_parent (base.getD a default)
            { p with children := p.children ++ [a] }).neighbors f =
            (if (base.getD a default).index.get (faceAxis f) % 2 = faceBit f then
              pushNew (p.neighbors f) ((base.getD a default).neighbors f)
            else p.neighbors f) from rfl] at hm
        split at hm
        · next hcond =>
          rcases (mem_pushNew _ _).mp hm with hm | hm
          · exact Or.inl hm
          · exact Or.inr ⟨a, List.mem_cons_self a rest, hcond, hm⟩
        · exact Or.inl hm
      · exact Or.inr ⟨c, List.mem_cons_of_mem a hc, hcond, hmem⟩
    · rintro (hm | ⟨c, hc, hcond, hmem⟩)
      · refine Or.inl ?_
        rw [show (add_child_to_parent (base.getD a default)
            { p with children := p.children ++ [a] }).neighbors f =
            (if (base.getD a default).index.get (faceAxis f) % 2 = faceBit f then
              pushNew (p.neighbors f) ((base.getD a default).neighbors f)
            else p.neighbors f) from rfl]
        split
        · exact (mem_pushNew _ _).mpr (Or.inl hm)
        · exact hm
      · rcases List.mem_cons.mp hc with rfl | hc
        · refine Or.inl ?_
          rw [show (add_child_to_parent (base.getD c default)
              { p with children := p.children ++ [c] }).neighbors f =
              (if (base.getD c default).index.get (faceAxis f) % 2 = faceBit f then
                pushNew (p.neighbors f) ((base.getD c default).neighbors f)
              else p.neighbors f) from rfl]
          rw [if_pos hcond]
          exact (mem_pushNew _ _).mpr (Or.inr hmem)
        · exact Or.inr ⟨c, hc, hcond, hmem⟩

theorem mem_mkParent_neighbors {base : List OVertex} {u : ℕ} {f : Fin 6}
    {i : ℕ} {comp : List ℕ} :
    u ∈ (mkParent base i comp).neighbors f ↔ ∃ c ∈ comp,
      ((base.getD c default).index.get (faceAxis f)) % 2 = faceBit f ∧
        u ∈ (base.getD c default).neighbors f := by
  unfold mkParent
  rw [mem_mkParent_foldl_neighbors]
  simp

theorem Idx3.get_bump_self (x : Idx3) (k : Fin 3) : (x.bump k).get k = x.get k + 1 := by
  fin_cases k <;> rfl

theorem Idx3.get_half (x : Idx3) (k : Fin 3) : (half_index x).get k = x.get k / 2 := by
  fin_cases k <;> rfl

theorem getD_nat_mem (l : List ℕ) {p : ℕ} (h : p < l.length) : l.getD p 0 ∈ l := by
  rw [List.getD_eq_getElem?_getD, List.getElem?_eq_getElem h]
  exact List.getElem_mem h

theorem mem_compList {base : List OVertex} {i j : ℕ} :
    j ∈ compList base i ↔ j ∈ subcellComp base i :=
  Finset.mem_sort _

/-- The invariant of `subsample_octtree`'s main loop: `seeds` lists, in order,
the base indices whose subcell components have already been merged; the parent
slots and the produced parent list are consistent with them. -/
def LoopInv (base : List OVertex) (seeds : List ℕ)
    (st : List (Option ℕ) × List OVertex) : Prop :=
  st.1.length = base.length ∧
  st.2 = seeds.map (fun i => mkParent base i (compList base i)) ∧
  (∀ i ∈ seeds, i < base.length) ∧
  (∀ j p, j < base.length → st.1.getD j none = some p →
     p < seeds.length ∧ j ∈ subcellComp base (seeds.getD p 0)) ∧
  (∀ j, j < base.length → st.1.getD j none = none →
     ∀ i ∈ seeds, j ∉ subcellComp base i) ∧
  (∀ p, p < seeds.length → ∀ j ∈ subcellComp base (seeds.getD p 0),
     j < base.length → st.1.getD j none = some p)

theorem loopInv_init (base : List OVertex) (hpar : ∀ v ∈ base, v.parent = none) :
    LoopInv base [] (base.map (fun v => v.parent), []) := by
  have hnone : ∀ j, (base.map (fun v => v.parent)).getD j none = none := by
    intro j
    by_cases hj : j < base.length
    · rw [getD_map_lt (fun v => v.parent) base hj none default]
      exact hpar _ (by
        rw [List.getD_eq_getElem?_getD, List.getElem?_eq_getElem hj]
        exact List.getElem_mem hj)
    · rw [List.getD_eq_default]
      simpa using hj
  refine ⟨by simp, rfl, by simp, ?_, ?_, by simp⟩
  · intro j p _ hs
    rw [hnone j] at hs
    exact absurd hs (by simp)
  · intro j _ _ i hi
    exact absurd hi (List.not_mem_nil i)

theorem loopInv_step {base : List OVertex} (hadj : layerAdj base)
    (hsym : layerSym base) {seeds : List ℕ} {st : List (Option ℕ) × List OVertex}
    {i : ℕ} (hi : i < base.length) (hinv : LoopInv base seeds st)
    (hnone : st.1.getD i none = none) :
    LoopInv base (seeds ++ [i]) (subsampleStep base st i) := by
  obtain ⟨len1, hmap, hseeds, h4, h5, h6⟩ := hinv
  have hres_len : st.2.length = seeds.length := by rw [hmap, List.length_map]
  rw [subsampleStep, if_pos hnone]
  refine ⟨?_, ?_, ?_, ?_, ?_, ?_⟩
  · rw [length_foldl_set]
    exact len1
  · simp [hmap]
  · intro s hs
    rcases List.mem_append.mp hs with hs | hs
    · exact hseeds s hs
    · rw [List.mem_singleton.mp hs]
      exact hi
  · intro j p hj hs
    by_cases hjc : j ∈ compList base i
    · rw [getD_foldl_set_mem _ _ _ _ hjc (len1 ▸ hj)] at hs
      have hp : p = seeds.length := by
        have := Option.some.inj hs
        omega
      subst hp
      rw [getD_append_self]
      refine ⟨by simp, mem_compList.mp hjc⟩
    · rw [getD_foldl_set_not_mem _ _ hjc] at hs
      obtain ⟨hplt, hmem⟩ := h4 j p hj hs
      rw [getD_append_left seeds [i] hplt]
      exact ⟨by simp; omega, hmem⟩
  · intro j hj hsnone s hs
    have hjc : j ∉ compList base i := by
      intro hjc
      rw [getD_foldl_set_mem _ _ _ _ hjc (len1 ▸ hj)] at hsnone
      exact absurd hsnone (by simp)
    rw [getD_foldl_set_not_mem _ _ hjc] at hsnone
    rcases List.mem_append.mp hs with hs | hs
    · exact h5 j hj hsnone s hs
    · rw [List.mem_singleton.mp hs]
      exact fun hm => hjc (mem_compList.mpr hm)
  · intro p hp j hjmem hjlen
    rcases lt_or_ge p seeds.length with hplt | hpge
    · rw [getD_append_left seeds [i] hplt] at hjmem
      have hseed : seeds.getD p 0 ∈ seeds := getD_nat_mem seeds hplt
      have hseedlen : seeds.getD p 0 < base.length := hseeds _ hseed
      have hjc : j ∉ compList base i := by
        intro hjc
        have hji : j ∈ subcellComp base i := mem_compList.mp hjc
        have hcomp_eq : subcellComp base i = subcellComp base (seeds.getD p 0) := by
          rw [← subcellComp_eq_of_mem hadj hsym hi hji,
            subcellComp_eq_of_mem hadj hsym hseedlen hjmem]
        have : i ∈ subcellComp base (seeds.getD p 0) :=
          hcomp_eq ▸ mem_subcellComp_self base i
        exact h5 i hi hnone _ hseed this
      rw [getD_foldl_set_not_mem _ _ hjc]
      exact h6 p hplt j hjmem hjlen
    · have hp' : p = seeds.length := by
        simp only [List.length_append, List.length_singleton] at hp
        omega
      subst hp'
      rw [getD_append_self] at hjmem
      rw [getD_foldl_set_mem _ _ _ _ (mem_compList.mpr hjmem) (len1 ▸ hjlen), hres_len]

theorem subsampleStep_skip {base : List OVertex} {st : List (Option ℕ) × List OVertex}
    {i : ℕ} (hsome : st.1.getD i none ≠ none) : subsampleStep base st i = st := by
  rw [subsampleStep, if_neg hsome]

theorem loopInv_foldl {base : List OVertex} (hadj : layerAdj base)
    (hsym : layerSym base) :
    ∀ (l : List ℕ) (seeds : List ℕ) (st : List (Option ℕ) × List OVertex),
      (∀ i ∈ l, i < base.length) → LoopInv base seeds st →
      ∃ seeds', LoopInv base seeds' (l.foldl (subsampleStep base) st) := by
  intro l
  induction l with
  | nil => intro seeds st _ hinv; exact ⟨seeds, hinv⟩
  | cons a rest ih =>
    intro seeds st hlen hinv
    rw [List.foldl_cons]
    by_cases ha : st.1.getD a none = none
    · exact ih (seeds ++ [a]) _ (fun i hi => hlen i (List.mem_cons_of_mem a hi))
        (loopInv_step hadj hsym (hlen a (List.mem_cons_self a rest)) hinv ha)
    · rw [subsampleStep_skip ha]
      exact ih seeds st (fun i hi => hlen i (List.mem_cons_of_mem a hi)) hinv

theorem loop_some_mono (base : List OVertex) {j : ℕ}
    (st : List (Option ℕ) × List OVertex) (i : ℕ)
    (h : st.1.getD j none ≠ none) : (subsampleStep base st i).1.getD j none ≠ none := by
  have hj : j < st.1.length := by
    by_contra hge
    rw [List.getD_eq_default _ _ (by omega)] at h
    exact h rfl
  rw [subsampleStep]
  split
  · by_cases hjc : j ∈ compList base i
    · rw [getD_foldl_set_mem _ _ _ _ hjc hj]
      simp
    · rw [getD_foldl_set_not_mem _ _ hjc]
      exact h
  · exact h

theorem loop_foldl_some_mono (base : List OVertex) {j : ℕ} :
    ∀ (l : List ℕ) (st : List (Option ℕ) × List OVertex),
      st.1.getD j none ≠ none →
      (l.foldl (subsampleStep base) st).1.getD j none ≠ none := by
  intro l
  induction l with
  | nil => intro st h; exact h
  | cons a rest ih =>
    intro st h
    rw [List.foldl_cons]
    exact ih _ (loop_some_mono base st a h)

theorem loop_self_some (base : List OVertex)
    {st : List (Option ℕ) × List OVertex} {i : ℕ} (hi : i < st.1.length) :
    (subsampleStep base st i).1.getD i none ≠ none := by
  rw [subsampleStep]
  split
  · rw [getD_foldl_set_mem _ _ _ _ (mem_compList_self base i) hi]
    simp
  · next h => exact h

theorem loop_total (base : List OVertex) :
    ∀ (l : List ℕ) (st : List (Option ℕ) × List OVertex),
      (∀ i ∈ l, i < st.1.length) → ∀ j ∈ l,
      (l.foldl (subsampleStep base) st).1.getD j none ≠ none := by
  intro l
  induction l with
  | nil => intro st _ j hj; exact absurd hj (List.not_mem_nil j)
  | cons a rest ih =>
    intro st hlen j hj
    rw [List.foldl_cons]
    rcases List.mem_cons.mp hj with rfl | hj
    · exact loop_foldl_some_mono base rest _
        (loop_self_some base (hlen j (List.mem_cons_self j rest)))
    · exact ih _ (fun i hi => by
        rw [subsampleStep_pars_length]
        exact hlen i (List.mem_cons_of_mem a hi)) j hj

theorem faceAxis_flip : ∀ f : Fin 6, faceAxis (flipFace f) = faceAxis f := by decide

theorem faceBit_flip : ∀ f : Fin 6, faceBit (flipFace f) = 1 - faceBit f := by decide

theorem faceBit_le_one : ∀ f : Fin 6, faceBit f ≤ 1 := by decide

theorem adjacentIdx_parity {k : Fin 3} {b : ℕ} {v u : Idx3} (hb : b ≤ 1)
    (ha : adjacentIdx k b v u) (hv : v.get k % 2 = b) : u.get k % 2 = 1 - b := by
  unfold adjacentIdx at ha
  split at ha
  · next h1 =>
    rw [ha, Idx3.get_bump_self]
    omega
  · next h1 =>
    rw [ha, Idx3.get_bump_self] at hv
    omega

theorem adjacentIdx_half {k : Fin 3} {b : ℕ} {v u : Idx3} (hb : b ≤ 1)
    (ha : adjacentIdx k b v u) (hv : v.get k % 2 = b) :
    adjacentIdx k b (half_index v) (half_index u) := by
  unfold adjacentIdx at ha ⊢
  split at ha <;> split
  · next h1 _ =>
    subst h1
    rw [ha, half_bump hv]
  · next h1 h2 => exact absurd h1 h2
  · next h1 h2 => exact absurd h2 h1
  · next h1 _ =>
    have hb0 : b = 0 := by omega
    subst hb0
    have hu : u.get k % 2 = 1 := by
      rw [ha, Idx3.get_bump_self] at hv
      omega
    rw [ha, half_bump hu]

theorem rewrite_index (pars : List (Option ℕ)) (v : OVertex) :
    (rewrite_to_parents pars v).index = v.index := rfl

theorem rewrite_parent (pars : List (Option ℕ)) (v : OVertex) :
    (rewrite_to_parents pars v).parent = v.parent := rfl

theorem subsample_chars {base : List OVertex} (hadj : layerAdj base)
    (hsym : layerSym base) (hpar : ∀ v ∈ base, v.parent = none) :
    ∃ (seeds : List ℕ) (pars : List (Option ℕ)),
      subsample_octtree base =
        (seeds.map (fun i => mkParent base i (compList base i))).map
          (rewrite_to_parents pars) ∧
      (∀ i ∈ seeds, i < base.length) ∧
      (∀ j p, j < base.length → pars.getD j none = some p →
         p < seeds.length ∧ j ∈ subcellComp base (seeds.getD p 0)) ∧
      (∀ p, p < seeds.length → ∀ j ∈ subcellComp base (seeds.getD p 0),
         j < base.length → pars.getD j none = some p) ∧
      (∀ j, j < base.length → pars.getD j none ≠ none) := by
  obtain ⟨seeds, hinv⟩ := loopInv_foldl hadj hsym (List.range base.length) []
    (base.map (fun v => v.parent), [])
    (fun i hi => List.mem_range.mp hi) (loopInv_init base hpar)
  obtain ⟨len1, hmap, hseeds, h4, h5, h6⟩ := hinv
  refine ⟨seeds,
    ((List.range base.length).foldl (subsampleStep base)
      (base.map (fun v => v.parent), [])).1, ?_, hseeds, h4, h6, ?_⟩
  · show ((List.range base.length).foldl (subsampleStep base)
        (base.map (fun v => v.parent), [])).2.map _ = _
    rw [hmap]
  · intro j hj
    exact loop_total base (List.range base.length) _
      (fun i hi => by simpa using List.mem_range.mp hi)
      j (List.mem_range.mpr hj)

theorem rewrite_neighbors (pars : List (Option ℕ)) (v : OVertex) (f : Fin 6) :
    (rewrite_to_parents pars v).neighbors f =
      (v.neighbors f).map (fun j => (pars.getD j none).getD 0) := rfl

theorem subsample_getD {base : List OVertex} {seeds : List ℕ}
    {pars : List (Option ℕ)}
    (heq : subsample_octtree base =
      (seeds.map (fun i => mkParent base i (compList base i))).map
        (rewrite_to_parents pars))
    {vi : ℕ} (hvi : vi < seeds.length) :
    (subsample_octtree base).getD vi default =
      rewrite_to_parents pars
        (mkParent base (seeds.getD vi 0) (compList base (seeds.getD vi 0))) := by
  rw [heq, getD_map_lt _ _ (by simpa using hvi) default default,
    getD_map_lt _ _ hvi default 0]

theorem subsample_sym {base : List OVertex} (hadj : layerAdj base)
    (hsym : layerSym base) (hpar : ∀ v ∈ base, v.parent = none) :
    layerSym (subsample_octtree base) := by
  obtain ⟨seeds, pars, heq, hseeds, h4, h6, htot⟩ := subsample_chars hadj hsym hpar
  have hlen : (subsample_octtree base).length = seeds.length := by rw [heq]; simp
  intro vi hvi f u' hu'
  rw [hlen] at hvi
  rw [subsample_getD heq hvi, rewrite_neighbors] at hu'
  obtain ⟨u, hu, hparsu⟩ := List.mem_map.mp hu'
  obtain ⟨c, hc, hcpar, hcu⟩ := mem_mkParent_neighbors.mp hu
  have hslen : seeds.getD vi 0 < base.length := hseeds _ (getD_nat_mem seeds hvi)
  have hccomp : c ∈ subcellComp base (seeds.getD vi 0) := mem_compList.mp hc
  have hclen : c < base.length :=
    Finset.mem_range.mp (subcellComp_subset_range hadj hslen hccomp)
  obtain ⟨hulen, huadj⟩ := hadj c hclen f u hcu
  obtain ⟨pu, hpu⟩ := Option.ne_none_iff_exists'.mp (htot u hulen)
  obtain ⟨hpulen, hucomp⟩ := h4 u pu hulen hpu
  have hu'eq : u' = pu := by rw [← hparsu, hpu]; rfl
  subst hu'eq
  have hcv : pars.getD c none = some vi := h6 vi hvi c hccomp hclen
  rw [subsample_getD heq hpulen, rewrite_neighbors]
  apply List.mem_map.mpr
  refine ⟨c, ?_, by rw [hcv]; rfl⟩
  apply mem_mkParent_neighbors.mpr
  refine ⟨u, mem_compList.mpr hucomp, ?_, hsym c hclen f u hcu⟩
  rw [faceAxis_flip, faceBit_flip]
  exact adjacentIdx_parity (faceBit_le_one f) huadj hcpar

theorem subsample_adj {base : List OVertex} (hadj : layerAdj base)
    (hsym : layerSym base) (hpar : ∀ v ∈ base, v.parent = none) :
    layerAdj (subsample_octtree base) := by
  obtain ⟨seeds, pars, heq, hseeds, h4, h6, htot⟩ := subsample_chars hadj hsym hpar
  have hlen : (subsample_octtree base).length = seeds.length := by rw [heq]; simp
  intro vi hvi f u' hu'
  rw [hlen] at hvi
  rw [subsample_getD heq hvi, rewrite_neighbors] at hu'
  obtain ⟨u, hu, hparsu⟩ := List.mem_map.mp hu'
  obtain ⟨c, hc, hcpar, hcu⟩ := mem_mkParent_neighbors.mp hu
  have hslen : seeds.getD vi 0 < base.length := hseeds _ (getD_nat_mem seeds hvi)
  have hccomp : c ∈ subcellComp base (seeds.getD vi 0) := mem_compList.mp hc
  have hclen : c < base.length :=
    Finset.mem_range.mp (subcellComp_subset_range hadj hslen hccomp)
  obtain ⟨hulen, huadj⟩ := hadj c hclen f u hcu
  obtain ⟨pu, hpu⟩ := Option.ne_none_iff_exists'.mp (htot u hulen)
  obtain ⟨hpulen, hucomp⟩ := h4 u pu hulen hpu
  have hu'eq : u' = pu := by rw [← hparsu, hpu]; rfl
  rw [hu'eq]
  constructor
  · rw [hlen]
    exact hpulen
  · rw [subsample_getD heq hvi, subsample_getD heq hpulen, rewrite_index,
      rewrite_index, mkParent_index, mkParent_index,
      (subcellComp_half base (seeds.getD vi 0) c hccomp).symm,
      (subcellComp_half base (seeds.getD pu 0) u hucomp).symm]
    exact adjacentIdx_half (faceBit_le_one f) huadj hcpar

theorem subsample_parent_none {base : List OVertex} (hadj : layerAdj base)
    (hsym : layerSym base) (hpar : ∀ v ∈ base, v.parent = none) :
    ∀ v ∈ subsample_octtree base, v.parent = none := by
  obtain ⟨seeds, pars, heq, hseeds, h4, h6, htot⟩ := subsample_chars hadj hsym hpar
  intro v hv
  rw [heq] at hv
  obtain ⟨w, hw, rfl⟩ := List.mem_map.mp hv
  obtain ⟨i, hi, rfl⟩ := List.mem_map.mp hw
  rw [rewrite_parent, mkParent_parent]

theorem subsample_coords {base : List OVertex} (hadj : layerAdj base)
    (hsym : layerSym base) (hpar : ∀ v ∈ base, v.parent = none) {m : ℕ}
    (hc : ∀ v ∈ base, ∀ k, v.index.get k < 2 ^ (m + 1)) :
    ∀ v ∈ subsample_octtree base, ∀ k, v.index.get k < 2 ^ m := by
  obtain ⟨seeds, pars, heq, hseeds, h4, h6, htot⟩ := subsample_chars hadj hsym hpar
  intro v hv k
  rw [heq] at hv
  obtain ⟨w, hw, rfl⟩ := List.mem_map.mp hv
  obtain ⟨i, hi, rfl⟩ := List.mem_map.mp hw
  rw [rewrite_index, mkParent_index, Idx3.get_half]
  have hilen : i < base.length := hseeds i hi
  have hmem : base.getD i default ∈ base := by
    rw [List.getD_eq_getElem?_getD, List.getElem?_eq_getElem hilen]
    exact List.getElem_mem hilen
  have := hc _ hmem k
  rw [pow_succ] at this
  omega

theorem allzero_no_neighbors {base : List OVertex} (hadj : layerAdj base)
    (hzero : ∀ v ∈ base, ∀ k, v.index.get k = 0) :
    ∀ j (f : Fin 6), (base.getD j default).neighbors f = [] := by
  intro j f
  by_cases hj : j < base.length
  · rw [List.eq_nil_iff_forall_not_mem]
    intro u hu
    obtain ⟨hul, hadjx⟩ := hadj j hj f u hu
    have hjm : base.getD j default ∈ base := by
      rw [List.getD_eq_getElem?_getD, List.getElem?_eq_getElem hj]
      exact List.getElem_mem hj
    have hum : base.getD u default ∈ base := by
      rw [List.getD_eq_getElem?_getD, List.getElem?_eq_getElem hul]
      exact List.getElem_mem hul
    unfold adjacentIdx at hadjx
    split at hadjx
    · have := congrArg (fun t => t.get (faceAxis f)) hadjx
      simp only [Idx3.get_bump_self] at this
      rw [hzero _ hum, hzero _ hjm] at this
      exact absurd this (by omega)
    · have := congrArg (fun t => t.get (faceAxis f)) hadjx
      simp only [Idx3.get_bump_self] at this
      rw [hzero _ hjm, hzero _ hum] at this
      exact absurd this (by omega)
  · rw [List.getD_eq_default _ _ (by omega), default_OVertex_neighbors]

theorem allzero_sym {base : List OVertex} (hadj : layerAdj base)
    (hzero : ∀ v ∈ base, ∀ k, v.index.get k = 0) : layerSym base := by
  intro vi hvi f u hu
  rw [allzero_no_neighbors hadj hzero vi f] at hu
  exact absurd hu (List.not_mem_nil u)

theorem allzero_comp {base : List OVertex} (hadj : layerAdj base)
    (hzero : ∀ v ∈ base, ∀ k, v.index.get k = 0) (i : ℕ) :
    subcellComp base i = {i} := by
  have hT : ∀ (h : Idx3) (j : ℕ), stepTargets base h j = ∅ := by
    intro h j
    unfold stepTargets
    have hnn : ∀ f : Fin 6, (base.getD j default).neighbors f = [] :=
      fun f => allzero_no_neighbors hadj hzero j f
    simp only [hnn]
    simp
  unfold subcellComp
  apply compIter_of_fix
  unfold expandSubcell
  simp [hT]

theorem subsample_allzero_len {base : List OVertex} (hadj : layerAdj base)
    (hpar : ∀ v ∈ base, v.parent = none)
    (hzero : ∀ v ∈ base, ∀ k, v.index.get k = 0) :
    (subsample_octtree base).length = base.length := by
  obtain ⟨seeds, pars, heq, hseeds, h4, h6, htot⟩ :=
    subsample_chars hadj (allzero_sym hadj hzero) hpar
  have hlen : (subsample_octtree base).length = seeds.length := by rw [heq]; simp
  have hge : base.length ≤ seeds.length := by
    have hsub : Finset.range base.length ⊆ seeds.toFinset := by
      intro j hj
      have hjlen : j < base.length := Finset.mem_range.mp hj
      obtain ⟨p, hp⟩ := Option.ne_none_iff_exists'.mp (htot j hjlen)
      obtain ⟨hplen, hmem⟩ := h4 j p hjlen hp
      rw [allzero_comp hadj hzero, Finset.mem_singleton] at hmem
      rw [List.mem_toFinset, hmem]
      exact getD_nat_mem seeds hplen
    calc base.length = (Finset.range base.length).card := (Finset.card_range _).symm
      _ ≤ seeds.toFinset.card := Finset.card_le_card hsub
      _ ≤ seeds.length := seeds.toFinset_card_le
  have hle := subsample_len_le base
  omega

theorem layer_bound : ∀ (m : ℕ) (layer : List OVertex), layerAdj layer →
    layerSym layer → (∀ v ∈ layer, v.parent = none) →
    (∀ v ∈ layer, ∀ k, v.index.get k < 2 ^ m) →
    (buildStack layer).length ≤ m + 1 := by
  intro m
  induction m with
  | zero =>
    intro layer hadj hsym hpar hc
    have hzero : ∀ v ∈ layer, ∀ k, v.index.get k = 0 := by
      intro v hv k
      have := hc v hv k
      simpa using this
    have hstop := subsample_allzero_len hadj hpar hzero
    rw [buildStack, dif_pos hstop]
    simp
  | succ m ih =>
    intro layer hadj hsym hpar hc
    rw [buildStack]
    by_cases hstop : (subsample_octtree layer).length = layer.length
    · rw [dif_pos hstop]
      simp
    · rw [dif_neg hstop]
      have := ih (subsample_octtree layer) (subsample_adj hadj hsym hpar)
        (subsample_sym hadj hsym hpar) (subsample_parent_none hadj hsym hpar)
        (subsample_coords hadj hsym hpar hc)
      simp only [List.length_cons]
      omega

/-- C9: each `subsample_octtree` pass produces a layer at most as long as its
input; the simplification loop stops exactly when a pass preserves the length
(so `buildStack` is total and a produced layer of equal length ends the stack);
and for a well-formed layer (valid axial neighbour links, symmetric neighbours,
no parents yet) whose cell indices are below `2 ^ ⌈log2 maxdim⌉`, the total
number of layers is at most `⌈log2 maxdim⌉ + 1`. -/
theorem simplification_termination :
    (∀ base : List OVertex, (subsample_octtree base).length ≤ base.length) ∧
    (∀ layer : List OVertex, (subsample_octtree layer).length = layer.length →
      buildStack layer = [layer]) ∧
    (∀ (maxdim : ℕ) (layer : List OVertex), layerAdj layer → layerSym layer →
      (∀ v ∈ layer, v.parent = none) →
      (∀ v ∈ layer, ∀ k, v.index.get k < 2 ^ Nat.clog 2 maxdim) →
      (buildStack layer).length ≤ Nat.clog 2 maxdim + 1) := by
  refine ⟨subsample_len_le, ?_, ?_⟩
  · intro layer hstop
    rw [buildStack, dif_pos hstop]
  · intro maxdim layer hadj hsym hpar hc
    exact layer_bound (Nat.clog 2 maxdim) layer hadj hsym hpar hc

/-- Witness for C9 at the empty layer and `maxdim = 1`: the subsample is not
longer, and the stack has at most one layer. -/
theorem simplification_termination_witness :
    (subsample_octtree []).length ≤ ([] : List OVertex).length ∧
    (buildStack []).length ≤ Nat.clog 2 1 + 1 :=
  ⟨simplification_termination.1 [],
   simplification_termination.2.2 1 []
     (by intro vi hvi f u hu; simp at hvi)
     (by intro vi hvi f u hu; simp at hvi)
     (by intro v hv; simp at hv)
     (by intro v hv; simp at hv)⟩

/-! ## Leaf vertices: `generate_leaf_vertices` (claim C7) -/

/-- The twelve edges in table order. -/
def allEdges : List Edge :=
  [.A, .B, .C, .D, .E, .F, .G, .H, .I, .J, .K, .L]

theorem mem_allEdges (e : Edge) : e ∈ allEdges := by
  cases e <;> simp [allEdges]

/-- Decrement one index component (`idx[d] -= 1`; callers guard against 0). -/
def Idx3.unbump (i : Idx3) : Fin 3 → Idx3
  | 0 => ⟨i.x - 1, i.y, i.z⟩
  | 1 => ⟨i.x, i.y - 1, i.z⟩
  | 2 => ⟨i.x, i.y, i.z - 1⟩

/-- An edge lies on cell face `f` iff its axis differs from the face's axis and
its offset sits on the face's side of that axis. -/
def edgeOnFace (e : Edge) (f : Fin 6) : Bool :=
  decide (edgeAxis e ≠ faceAxis f) &&
    decide ((EDGE_OFFSET e).get (faceAxis f) = faceBit f)

/-- The same geometric edge renamed in the cell across face `f`: same axis, the
face-axis offset coordinate flipped, all other offset coordinates unchanged. -/
def faceTranslate (f : Fin 6) (e : Edge) : Edge :=
  (allEdges.find? (fun e2 =>
    decide (edgeAxis e2 = edgeAxis e) &&
      decide ((EDGE_OFFSET e2).get (faceAxis f) = 1 - faceBit f) &&
      decide (∀ j : Fin 3, j ≠ faceAxis f →
        (EDGE_OFFSET e2).get j = (EDGE_OFFSET e).get j))).getD e

/-- The edge-set seen from the cell across face `f`: every member edge lying on
face `f`, renamed by `faceTranslate`. -/
def translateSet (f : Fin 6) (s : BSet) : BSet :=
  allEdges.foldl (fun acc e =>
    if s.get e.toNat && edgeOnFace e f then acc.set (faceTranslate f e).toNat
    else acc) 0

/-- Modelled from the spec: `VertexIndex::neighbor(i)` of the `vertex_index`
collaborator (its source file is not part of `src/`).  Per §4.4 the builder
"asks each of six axial neighbouring cells for the edge-sets that share edges
with this cluster's edge-set": the neighbour handle names the adjacent cell
along face `f` and carries this cluster's edges as seen from that cell.  It is
absent when no edge of the cluster lies on that face (nothing can be shared
across it) or when the grid boundary is reached in the negative direction. -/
def VertexIndexT.neighbor (v : VertexIndexT) (f : Fin 6) : Option VertexIndexT :=
  if translateSet f v.edges = 0 then none
  else if faceBit f = 0 ∧ v.index.get (faceAxis f) = 0 then none
  else some { edges := translateSet f v.edges,
              index := if faceBit f = 1 then v.index.bump (faceAxis f)
                       else v.index.unbump (faceAxis f) }

/-- `push`-with-`contains`-check over vertex-index keys (source lines 574-576). -/
def pushNewKeys (l : List VertexIndexT) (xs : List VertexIndexT) :
    List VertexIndexT :=
  xs.foldl (fun acc x => if x ∈ acc then acc else acc ++ [x]) l

/-- The neighbour keys stored for a fresh leaf vertex in direction `f` (source
lines 568-579): if the cell across face `f` exists, every edge-set of that cell
sharing an edge with the translated edge-set, paired with that cell. -/
def mkLeafNbrs (c : Ctx) (vg : VGrid) (key : VertexIndexT) (f : Fin 6) :
    List VertexIndexT :=
  match key.neighbor f with
  | some nb => pushNewKeys []
      ((get_connected_edges_from_edge_set c.cellConfigs nb.edges
        (bitset_for_cell vg nb.index)).map (fun s => ⟨s, nb.index⟩))
  | none => []

/-- Position of the first occurrence of a key (the `index_map` lookup: the map
sends each key to the position of the vertex created for it). -/
def keyIndex (k : VertexIndexT) : List VertexIndexT → ℕ
  | [] => 0
  | k2 :: rest => if k2 = k then 0 else keyIndex k rest + 1

/-- The insertion-ordered list of vertex-index keys built by the
`add_vertices_for_minimal_egde` loop over the edge grid (source lines 512-514
and 552-598): for each crossing edge and each of its four quad cells, the
connected edge-set in that cell keyed by the cell, appended on first sight.
The `vertices` vector and `index_map` of the source are recovered from this
list: the vertex at position `n` is built from the `n`-th key. -/
def leafKeys (c : Ctx) (vg : VGrid) (eg : EGrid) : List VertexIndexT :=
  eg.foldl (fun keys pr =>
    (QUADS pr.1.edge).foldl (fun keys quad_edge =>
      if (⟨get_connected_edges c.cellConfigs quad_edge
            (bitset_for_cell vg (pr.1.index.neg_offset (EDGE_OFFSET quad_edge))),
          pr.1.index.neg_offset (EDGE_OFFSET quad_edge)⟩ : VertexIndexT) ∈ keys
      then keys
      else keys ++ [⟨get_connected_edges c.cellConfigs quad_edge
            (bitset_for_cell vg (pr.1.index.neg_offset (EDGE_OFFSET quad_edge))),
          pr.1.index.neg_offset (EDGE_OFFSET quad_edge)⟩]) keys) []

/-- The leaf vertex materialised for `key` (source lines 565-596), with its
neighbour keys already rewritten to local indices (the source's second sweep,
lines 515-526). -/
def mkLeafVertex (c : Ctx) (vg : VGrid) (keys : List VertexIndexT)
    (key : VertexIndexT) : OVertex :=
  { index := key.index,
    neighbors := fun f => (mkLeafNbrs c vg key f).map (fun k => keyIndex k keys),
    parent := none,
    children := [] }

/-- `generate_leaf_vertices` from the source: materialise one vertex per key, in
key order, then rewrite neighbour references to local indices. -/
def generate_leaf_vertices (c : Ctx) (vg : VGrid) (eg : EGrid) : List OVertex :=
  (leafKeys c vg eg).map (mkLeafVertex c vg (leafKeys c vg eg))

theorem Idx3.unbump_bump (x : Idx3) (k : Fin 3) : (x.bump k).unbump k = x := by
  fin_cases k <;> simp [Idx3.bump, Idx3.unbump]

theorem Idx3.bump_unbump (x : Idx3) (k : Fin 3) (h : x.get k ≠ 0) :
    (x.unbump k).bump k = x := by
  fin_cases k
  · revert h
    show x.get 0 ≠ 0 → (x.unbump 0).bump 0 = x
    intro h
    simp only [Idx3.get] at h
    show (⟨x.x - 1 + 1, x.y, x.z⟩ : Idx3) = ⟨x.x, x.y, x.z⟩
    simp only [Idx3.mk.injEq, and_true, true_and]
    omega
  · revert h
    show x.get 1 ≠ 0 → (x.unbump 1).bump 1 = x
    intro h
    simp only [Idx3.get] at h
    show (⟨x.x, x.y - 1 + 1, x.z⟩ : Idx3) = ⟨x.x, x.y, x.z⟩
    simp only [Idx3.mk.injEq, and_true, true_and]
    omega
  · revert h
    show x.get 2 ≠ 0 → (x.unbump 2).bump 2 = x
    intro h
    simp only [Idx3.get] at h
    show (⟨x.x, x.y, x.z - 1 + 1⟩ : Idx3) = ⟨x.x, x.y, x.z⟩
    simp only [Idx3.mk.injEq, and_true, true_and]
    omega

theorem BSet.get_set_iff (s : BSet) (i j : ℕ) :
    (s.set i).get j = true ↔ j = i ∨ s.get j = true := by
  show (s ||| (1 <<< i)).testBit j = true ↔ j = i ∨ s.testBit j = true
  rw [Nat.testBit_or, Nat.one_shiftLeft, Nat.testBit_two_pow]
  simp only [Bool.or_eq_true, decide_eq_true_eq]
  tauto

theorem bset_ne_zero_of_get {s : BSet} {j : ℕ} (h : s.get j = true) : s ≠ 0 := by
  intro h0
  rw [h0] at h
  simpa [BSet.get] using h

theorem bset_exists_get {s : BSet} (h : s ≠ 0) : ∃ j, s.get j = true := by
  obtain ⟨i, hi⟩ := Nat.ne_zero_implies_bit_true h
  exact ⟨i, hi⟩

theorem BSet.get_intersect (s t : BSet) (j : ℕ) :
    (s.intersect t).get j = (s.get j && t.get j) :=
  Nat.testBit_and s t j

theorem BSet.not_empty_iff (s : BSet) : (!s.empty) = true ↔ s ≠ 0 := by
  show (!(decide (s = 0))) = true ↔ s ≠ 0
  simp

theorem get_translate_foldl (s : BSet) (f : Fin 6) :
    ∀ (l : List Edge) (acc : BSet) (j : ℕ),
      ((l.foldl (fun acc e =>
        if s.get e.toNat && edgeOnFace e f then acc.set (faceTranslate f e).toNat
        else acc) acc).get j = true) ↔
      (acc.get j = true ∨ ∃ e ∈ l, s.get e.toNat = true ∧ edgeOnFace e f = true ∧
        (faceTranslate f e).toNat = j) := by
  intro l
  induction l with
  | nil => intro acc j; simp
  | cons a rest ih =>
    intro acc j
    rw [List.foldl_cons]
    by_cases hP : (s.get a.toNat && edgeOnFace a f) = true
    · rw [if_pos hP, ih, BSet.get_set_iff]
      simp only [Bool.and_eq_true] at hP
      constructor
      · rintro ((rfl | hacc) | ⟨e, he, h1, h2, h3⟩)
        · exact Or.inr ⟨a, List.mem_cons_self a rest, hP.1, hP.2, rfl⟩
        · exact Or.inl hacc
        · exact Or.inr ⟨e, List.mem_cons_of_mem a he, h1, h2, h3⟩
      · rintro (hacc | ⟨e, he, h1, h2, h3⟩)
        · exact Or.inl (Or.inr hacc)
        · rcases List.mem_cons.mp he with rfl | he
          · exact Or.inl (Or.inl h3.symm)
          · exact Or.inr ⟨e, he, h1, h2, h3⟩
    · rw [if_neg hP, ih]
      constructor
      · rintro (hacc | ⟨e, he, h1, h2, h3⟩)
        · exact Or.inl hacc
        · exact Or.inr ⟨e, List.mem_cons_of_mem a he, h1, h2, h3⟩
      · rintro (hacc | ⟨e, he, h1, h2, h3⟩)
        · exact Or.inl hacc
        · rcases List.mem_cons.mp he with rfl | he
          · exact absurd (by simp [h1, h2] :
              (s.get e.toNat && edgeOnFace e f) = true) hP
          · exact Or.inr ⟨e, he, h1, h2, h3⟩

theorem get_translateSet {f : Fin 6} {s : BSet} {j : ℕ} :
    (translateSet f s).get j = true ↔
      ∃ e, s.get e.toNat = true ∧ edgeOnFace e f = true ∧
        (faceTranslate f e).toNat = j := by
  unfold translateSet
  rw [get_translate_foldl]
  constructor
  · rintro (h0 | ⟨e, _, h⟩)
    · simp [BSet.get] at h0
    · exact ⟨e, h⟩
  · rintro ⟨e, h⟩
    exact Or.inr ⟨e, mem_allEdges e, h⟩

theorem getD_mem_of_lt {α : Type} (l : List α) {p : ℕ} (h : p < l.length) (d : α) :
    l.getD p d ∈ l := by
  rw [List.getD_eq_getElem?_getD, List.getElem?_eq_getElem h]
  exact List.getElem_mem h

theorem keyIndex_lt {k : VertexIndexT} :
    ∀ keys : List VertexIndexT, k ∈ keys → keyIndex k keys < keys.length := by
  intro keys
  induction keys with
  | nil => intro h; exact absurd h (List.not_mem_nil k)
  | cons k2 rest ih =>
    intro h
    rw [keyIndex]
    split
    · simp
    · next hne =>
      have : k ∈ rest := by
        rcases List.mem_cons.mp h with rfl | h
        · exact absurd rfl hne
        · exact h
      have := ih this
      simp only [List.length_cons]
      omega

theorem getD_keyIndex {k : VertexIndexT} (d : VertexIndexT) :
    ∀ keys : List VertexIndexT, k ∈ keys → keys.getD (keyIndex k keys) d = k := by
  intro keys
  induction keys with
  | nil => intro h; exact absurd h (List.not_mem_nil k)
  | cons k2 rest ih =>
    intro h
    rw [keyIndex]
    split
    · next heq => exact heq
    · next hne =>
      have hk : k ∈ rest := by
        rcases List.mem_cons.mp h with rfl | h
        · exact absurd rfl hne
        · exact h
      show (k2 :: rest).getD (keyIndex k rest + 1) d = k
      rw [show (k2 :: rest).getD (keyIndex k rest + 1) d = rest.getD (keyIndex k rest) d
        from by simp [List.getD]]
      exact ih hk

theorem keyIndex_getD (d : VertexIndexT) :
    ∀ keys : List VertexIndexT, keys.Nodup → ∀ p, p < keys.length →
      keyIndex (keys.getD p d) keys = p := by
  intro keys
  induction keys with
  | nil => intro _ p hp; simp at hp
  | cons k2 rest ih =>
    intro hnd p hp
    rcases p with _ | p
    · show keyIndex ((k2 :: rest).getD 0 d) (k2 :: rest) = 0
      rw [show (k2 :: rest).getD 0 d = k2 from rfl, keyIndex, if_pos rfl]
    · have hp' : p < rest.length := by
        simp only [List.length_cons] at hp
        omega
      have hmem : rest.getD p d ∈ rest := getD_mem_of_lt rest hp' d
      rw [show (k2 :: rest).getD (p + 1) d = rest.getD p d from by simp [List.getD],
        keyIndex, if_neg (fun heq => (List.nodup_cons.mp hnd).1
          (by rw [heq]; exact hmem)),
        ih (List.nodup_cons.mp hnd).2 p hp']

theorem mem_pushNewKeys {u : VertexIndexT} :
    ∀ (xs l : List VertexIndexT), u ∈ pushNewKeys l xs ↔ u ∈ l ∨ u ∈ xs := by
  have hsub : ∀ (xs l : List VertexIndexT), u ∈ l → u ∈ pushNewKeys l xs := by
    intro xs
    induction xs with
    | nil => intro l hl; exact hl
    | cons a rest ih =>
      intro l hl
      apply ih
      by_cases ha : a ∈ l <;> simp [pushNewKeys, List.foldl_cons, ha, hl]
  intro xs
  induction xs with
  | nil =>
    intro l
    simp [pushNewKeys]
  | cons a rest ih =>
    intro l
    constructor
    · intro hm
      have : u ∈ (if a ∈ l then l else l ++ [a]) ∨ u ∈ rest := by
        refine (ih _).mp ?_
        simpa [pushNewKeys, List.foldl_cons] using hm
      rcases this with hm | hm
      · by_cases ha : a ∈ l
        · simp only [ha, if_true] at hm
          exact Or.inl hm
        · simp only [ha, if_false, List.mem_append, List.mem_singleton] at hm
          rcases hm with hm | rfl
          · exact Or.inl hm
          · exact Or.inr (List.mem_cons_self u rest)
      · exact Or.inr (List.mem_cons_of_mem a hm)
    · intro hm
      rcases hm with hm | hm
      · exact hsub _ _ hm
      · rcases List.mem_cons.mp hm with rfl | hm
        · show u ∈ pushNewKeys (if u ∈ l then l else l ++ [u]) rest
          apply hsub
          by_cases hu : u ∈ l <;> simp [hu]
        · show u ∈ pushNewKeys (if a ∈ l then l else l ++ [a]) rest
          exact (ih _).mpr (Or.inr hm)

theorem foldl_insert_nodup {α β : Type} [DecidableEq β] (F : α → β) :
    ∀ (l : List α) (ks : List β), ks.Nodup →
      (l.foldl (fun ks x => if F x ∈ ks then ks else ks ++ [F x]) ks).Nodup := by
  intro l
  induction l with
  | nil => intro ks h; exact h
  | cons a rest ih =>
    intro ks h
    rw [List.foldl_cons]
    by_cases hm : F a ∈ ks
    · rw [if_pos hm]
      exact ih ks h
    · rw [if_neg hm]
      refine ih _ ?_
      rw [List.nodup_append]
      refine ⟨h, List.nodup_singleton _, ?_⟩
      intro b hb hb2
      rw [List.mem_singleton] at hb2
      subst hb2
      exact hm hb

theorem leafKeys_nodup (c : Ctx) (vg : VGrid) (eg : EGrid) :
    (leafKeys c vg eg).Nodup := by
  suffices h : ∀ (eg : EGrid) (ks : List VertexIndexT), ks.Nodup →
      (eg.foldl (fun keys pr =>
        (QUADS pr.1.edge).foldl (fun keys quad_edge =>
          if (⟨get_connected_edges c.cellConfigs quad_edge
                (bitset_for_cell vg (pr.1.index.neg_offset (EDGE_OFFSET quad_edge))),
              pr.1.index.neg_offset (EDGE_OFFSET quad_edge)⟩ : VertexIndexT) ∈ keys
          then keys
          else keys ++ [⟨get_connected_edges c.cellConfigs quad_edge
                (bitset_for_cell vg (pr.1.index.neg_offset (EDGE_OFFSET quad_edge))),
              pr.1.index.neg_offset (EDGE_OFFSET quad_edge)⟩]) keys) ks).Nodup by
    exact h eg [] List.nodup_nil
  intro eg2
  induction eg2 with
  | nil => intro ks h; exact h
  | cons pr rest ih =>
    intro ks h
    rw [List.foldl_cons]
    exact ih _ (foldl_insert_nodup
      (fun quad_edge => (⟨get_connected_edges c.cellConfigs quad_edge
          (bitset_for_cell vg (pr.1.index.neg_offset (EDGE_OFFSET quad_edge))),
        pr.1.index.neg_offset (EDGE_OFFSET quad_edge)⟩ : VertexIndexT))
      (QUADS pr.1.edge) ks h)

theorem faceTranslate_onFace :
    ∀ f : Fin 6, ∀ e ∈ allEdges, edgeOnFace e f = true →
      edgeOnFace (faceTranslate f e) (flipFace f) = true := by decide

theorem faceTranslate_invol :
    ∀ f : Fin 6, ∀ e ∈ allEdges, edgeOnFace e f = true →
      faceTranslate (flipFace f) (faceTranslate f e) = e := by decide

theorem neighbor_some_elim {v : VertexIndexT} {f : Fin 6} {nb : VertexIndexT}
    (h : v.neighbor f = some nb) :
    nb.edges = translateSet f v.edges ∧
    translateSet f v.edges ≠ 0 ∧
    ¬(faceBit f = 0 ∧ v.index.get (faceAxis f) = 0) ∧
    nb.index = (if faceBit f = 1 then v.index.bump (faceAxis f)
                else v.index.unbump (faceAxis f)) := by
  unfold VertexIndexT.neighbor at h
  by_cases h1 : translateSet f v.edges = 0
  · rw [if_pos h1] at h
    exact absurd h (by simp)
  · rw [if_neg h1] at h
    by_cases h2 : (faceBit f = 0 ∧ v.index.get (faceAxis f) = 0)
    · rw [if_pos h2] at h
      exact absurd h (by simp)
    · rw [if_neg h2] at h
      obtain rfl := (Option.some.inj h).symm
      exact ⟨rfl, h1, h2, rfl⟩

theorem neighbor_eq_some {v : VertexIndexT} {f : Fin 6}
    (h0 : translateSet f v.edges ≠ 0)
    (hbd : ¬(faceBit f = 0 ∧ v.index.get (faceAxis f) = 0)) :
    v.neighbor f = some ⟨translateSet f v.edges,
      if faceBit f = 1 then v.index.bump (faceAxis f)
      else v.index.unbump (faceAxis f)⟩ := by
  unfold VertexIndexT.neighbor
  rw [if_neg h0, if_neg hbd]

theorem mkLeafNbrs_elim {c : Ctx} {vg : VGrid} {key : VertexIndexT} {f : Fin 6}
    {ku : VertexIndexT} (h : ku ∈ mkLeafNbrs c vg key f) :
    ∃ nb, key.neighbor f = some nb ∧
      ku.index = nb.index ∧
      ku.edges ∈ c.cellConfigs (bitset_for_cell vg nb.index) ∧
      (!(ku.edges.intersect nb.edges).empty) = true := by
  rcases hnb : key.neighbor f with _ | nb
  · have heq : mkLeafNbrs c vg key f = [] := by
      unfold mkLeafNbrs
      rw [hnb]
    rw [heq] at h
    exact absurd h (List.not_mem_nil ku)
  · have heq : mkLeafNbrs c vg key f = pushNewKeys []
        ((get_connected_edges_from_edge_set c.cellConfigs nb.edges
          (bitset_for_cell vg nb.index)).map (fun s => ⟨s, nb.index⟩)) := by
      unfold mkLeafNbrs
      rw [hnb]
    rw [heq] at h
    rcases (mem_pushNewKeys _ _).mp h with h0 | hmap
    · exact absurd h0 (List.not_mem_nil ku)
    · obtain ⟨S, hS, rfl⟩ := List.mem_map.mp hmap
      obtain ⟨hcfg, hint⟩ := List.mem_filter.mp hS
      exact ⟨nb, rfl, rfl, hcfg, hint⟩

theorem mkLeafNbrs_intro {c : Ctx} {vg : VGrid} {key : VertexIndexT} {f : Fin 6}
    {nb : VertexIndexT} {S : BSet} (hnb : key.neighbor f = some nb)
    (hcfg : S ∈ c.cellConfigs (bitset_for_cell vg nb.index))
    (hint : (!(S.intersect nb.edges).empty) = true) :
    (⟨S, nb.index⟩ : VertexIndexT) ∈ mkLeafNbrs c vg key f := by
  have heq : mkLeafNbrs c vg key f = pushNewKeys []
      ((get_connected_edges_from_edge_set c.cellConfigs nb.edges
        (bitset_for_cell vg nb.index)).map (fun s => ⟨s, nb.index⟩)) := by
    unfold mkLeafNbrs
    rw [hnb]
  rw [heq]
  exact (mem_pushNewKeys _ _).mpr
    (Or.inr (List.mem_map.mpr ⟨S, List.mem_filter.mpr ⟨hcfg, hint⟩, rfl⟩))

theorem mkLeafVertex_neighbors (c : Ctx) (vg : VGrid)
    (keys : List VertexIndexT) (key : VertexIndexT) (f : Fin 6) :
    (mkLeafVertex c vg keys key).neighbors f =
      (mkLeafNbrs c vg key f).map (fun k => keyIndex k keys) := rfl

theorem leaf_sym {c : Ctx} {vg : VGrid} {eg : EGrid}
    (hMat : ∀ key ∈ leafKeys c vg eg, ∀ f : Fin 6, ∀ k ∈ mkLeafNbrs c vg key f,
      k ∈ leafKeys c vg eg)
    (hSets : ∀ key ∈ leafKeys c vg eg,
      key.edges ∈ c.cellConfigs (bitset_for_cell vg key.index)) :
    layerSym (generate_leaf_vertices c vg eg) := by
  intro vi hvi f u hu
  have hlen : (generate_leaf_vertices c vg eg).length = (leafKeys c vg eg).length := by
    simp [generate_leaf_vertices]
  rw [hlen] at hvi
  have hgetvi : (generate_leaf_vertices c vg eg).getD vi default =
      mkLeafVertex c vg (leafKeys c vg eg)
        ((leafKeys c vg eg).getD vi ⟨0, ⟨0, 0, 0⟩⟩) := by
    unfold generate_leaf_vertices
    exact getD_map_lt _ _ hvi default ⟨0, ⟨0, 0, 0⟩⟩
  rw [hgetvi, mkLeafVertex_neighbors] at hu
  obtain ⟨ku, hku, rfl⟩ := List.mem_map.mp hu
  set key := (leafKeys c vg eg).getD vi ⟨0, ⟨0, 0, 0⟩⟩ with hkeydef
  have hkeymem : key ∈ leafKeys c vg eg := getD_mem_of_lt _ hvi _
  have hkumem : ku ∈ leafKeys c vg eg := hMat key hkeymem f ku hku
  obtain ⟨nb, hnb, hkuidx, hkucfg, hkuint⟩ := mkLeafNbrs_elim hku
  obtain ⟨hnbedges, hne0, hbd, hnbidx⟩ := neighbor_some_elim hnb
  have hint_ne : (ku.edges.intersect nb.edges) ≠ 0 := (BSet.not_empty_iff _).mp hkuint
  obtain ⟨j, hj⟩ := bset_exists_get hint_ne
  rw [BSet.get_intersect] at hj
  simp only [Bool.and_eq_true] at hj
  have hjku : ku.edges.get j = true := hj.1
  have hjnb : nb.edges.get j = true := hj.2
  rw [hnbedges] at hjnb
  obtain ⟨e0, he0v, he0f, he0j⟩ := get_translateSet.mp hjnb
  have he1f : edgeOnFace (faceTranslate f e0) (flipFace f) = true :=
    faceTranslate_onFace f e0 (mem_allEdges e0) he0f
  have he1inv : faceTranslate (flipFace f) (faceTranslate f e0) = e0 :=
    faceTranslate_invol f e0 (mem_allEdges e0) he0f
  have hrev : (translateSet (flipFace f) ku.edges).get e0.toNat = true :=
    get_translateSet.mpr
      ⟨faceTranslate f e0, by rw [he0j]; exact hjku, he1f, by rw [he1inv]⟩
  have hbit := faceBit_le_one f
  have hax : faceAxis (flipFace f) = faceAxis f := faceAxis_flip f
  have hbitflip := faceBit_flip f
  have hbd' : ¬(faceBit (flipFace f) = 0 ∧
      ku.index.get (faceAxis (flipFace f)) = 0) := by
    rw [hax, hbitflip, hkuidx, hnbidx]
    by_cases hb1 : faceBit f = 1
    · rw [if_pos hb1, hb1]
      intro hcon
      obtain ⟨hcon1, hcon2⟩ := hcon
      rw [Idx3.get_bump_self] at hcon2
      omega
    · have hb0 : faceBit f = 0 := by omega
      rw [hb0]
      intro hcon
      exact absurd hcon.1 (by omega)
  have hrevne : translateSet (flipFace f) ku.edges ≠ 0 := bset_ne_zero_of_get hrev
  have hnb' := neighbor_eq_some hrevne hbd'
  have hidx' : (if faceBit (flipFace f) = 1 then
        ku.index.bump (faceAxis (flipFace f))
      else ku.index.unbump (faceAxis (flipFace f))) = key.index := by
    rw [hax, hbitflip, hkuidx, hnbidx]
    by_cases hb1 : faceBit f = 1
    · rw [if_neg (show ¬(1 - faceBit f = 1) by omega), if_pos hb1]
      exact Idx3.unbump_bump key.index (faceAxis f)
    · have hb0 : faceBit f = 0 := by omega
      rw [if_pos (show 1 - faceBit f = 1 by omega),
        if_neg (show ¬(faceBit f = 1) by omega)]
      apply Idx3.bump_unbump
      intro hz
      exact hbd ⟨hb0, hz⟩
  have hkulen : keyIndex ku (leafKeys c vg eg) < (leafKeys c vg eg).length :=
    keyIndex_lt _ hkumem
  have hgetku : (generate_leaf_vertices c vg eg).getD
      (keyIndex ku (leafKeys c vg eg)) default =
      mkLeafVertex c vg (leafKeys c vg eg)
        ((leafKeys c vg eg).getD (keyIndex ku (leafKeys c vg eg)) ⟨0, ⟨0, 0, 0⟩⟩) := by
    unfold generate_leaf_vertices
    exact getD_map_lt _ _ hkulen default ⟨0, ⟨0, 0, 0⟩⟩
  rw [hgetku, getD_keyIndex ⟨0, ⟨0, 0, 0⟩⟩ _ hkumem, mkLeafVertex_neighbors]
  apply List.mem_map.mpr
  refine ⟨key, ?_, ?_⟩
  · have hself : key.edges ∈ c.cellConfigs (bitset_for_cell vg key.index) :=
      hSets key hkeymem
    have hintbit : (key.edges.intersect
        (translateSet (flipFace f) ku.edges)).get e0.toNat = true := by
      rw [BSet.get_intersect, he0v, hrev]
      rfl
    have hfin := mkLeafNbrs_intro (S := key.edges) hnb'
      (by
        show key.edges ∈ c.cellConfigs (bitset_for_cell vg _)
        rw [show ((⟨translateSet (flipFace f) ku.edges,
            if faceBit (flipFace f) = 1 then ku.index.bump (faceAxis (flipFace f))
            else ku.index.unbump (faceAxis (flipFace f))⟩ : VertexIndexT)).index =
          key.index from hidx']
        exact hself)
      (by
        show (!(key.edges.intersect (translateSet (flipFace f) ku.edges)).empty) = true
        exact (BSet.not_empty_iff _).mpr (bset_ne_zero_of_get hintbit))
    have heta : (⟨key.edges,
        (⟨translateSet (flipFace f) ku.edges,
          if faceBit (flipFace f) = 1 then ku.index.bump (faceAxis (flipFace f))
          else ku.index.unbump (faceAxis (flipFace f))⟩ : VertexIndexT).index⟩ :
        VertexIndexT) = key := by
      show (⟨key.edges, if faceBit (flipFace f) = 1 then
          ku.index.bump (faceAxis (flipFace f))
        else ku.index.unbump (faceAxis (flipFace f))⟩ : VertexIndexT) = key
      rw [hidx']
    rw [heta] at hfin
    exact hfin
  · rw [hkeydef]
    exact keyIndex_getD ⟨0, ⟨0, 0, 0⟩⟩ _ (leafKeys_nodup c vg eg) vi hvi

theorem mkLeafVertex_index (c : Ctx) (vg : VGrid) (keys : List VertexIndexT)
    (key : VertexIndexT) : (mkLeafVertex c vg keys key).index = key.index := rfl

theorem leaf_adj {c : Ctx} {vg : VGrid} {eg : EGrid}
    (hMat : ∀ key ∈ leafKeys c vg eg, ∀ f : Fin 6, ∀ k ∈ mkLeafNbrs c vg key f,
      k ∈ leafKeys c vg eg) :
    layerAdj (generate_leaf_vertices c vg eg) := by
  intro vi hvi f u hu
  have hlen : (generate_leaf_vertices c vg eg).length = (leafKeys c vg eg).length := by
    simp [generate_leaf_vertices]
  rw [hlen] at hvi
  have hgetvi : (generate_leaf_vertices c vg eg).getD vi default =
      mkLeafVertex c vg (leafKeys c vg eg)
        ((leafKeys c vg eg).getD vi ⟨0, ⟨0, 0, 0⟩⟩) := by
    unfold generate_leaf_vertices
    exact getD_map_lt _ _ hvi default ⟨0, ⟨0, 0, 0⟩⟩
  rw [hgetvi, mkLeafVertex_neighbors] at hu
  obtain ⟨ku, hku, rfl⟩ := List.mem_map.mp hu
  set key := (leafKeys c vg eg).getD vi ⟨0, ⟨0, 0, 0⟩⟩ with hkeydef
  have hkeymem : key ∈ leafKeys c vg eg := getD_mem_of_lt _ hvi _
  have hkumem : ku ∈ leafKeys c vg eg := hMat key hkeymem f ku hku
  obtain ⟨nb, hnb, hkuidx, hkucfg, hkuint⟩ := mkLeafNbrs_elim hku
  obtain ⟨hnbedges, hne0, hbd, hnbidx⟩ := neighbor_some_elim hnb
  have hbit := faceBit_le_one f
  have hkulen : keyIndex ku (leafKeys c vg eg) < (leafKeys c vg eg).length :=
    keyIndex_lt _ hkumem
  have hgetku : (generate_leaf_vertices c vg eg).getD
      (keyIndex ku (leafKeys c vg eg)) default =
      mkLeafVertex c vg (leafKeys c vg eg)
        ((leafKeys c vg eg).getD (keyIndex ku (leafKeys c vg eg)) ⟨0, ⟨0, 0, 0⟩⟩) := by
    unfold generate_leaf_vertices
    exact getD_map_lt _ _ hkulen default ⟨0, ⟨0, 0, 0⟩⟩
  constructor
  · rw [hlen]
    exact hkulen
  · rw [hgetvi, hgetku, getD_keyIndex ⟨0, ⟨0, 0, 0⟩⟩ _ hkumem,
      mkLeafVertex_index, mkLeafVertex_index, hkuidx, hnbidx]
    unfold adjacentIdx
    by_cases hb1 : faceBit f = 1
    · rw [if_pos hb1, if_pos hb1]
    · rw [if_neg hb1, if_neg hb1]
      exact (Idx3.bump_unbump key.index (faceAxis f)
        (fun hz => hbd ⟨by omega, hz⟩)).symm

theorem leaf_parent_none (c : Ctx) (vg : VGrid) (eg : EGrid) :
    ∀ v ∈ generate_leaf_vertices c vg eg, v.parent = none := by
  intro v hv
  obtain ⟨k, hk, rfl⟩ := List.mem_map.mp hv
  rfl

theorem buildStack_sym : ∀ (n : ℕ) (layer : List OVertex), layer.length ≤ n →
    layerAdj layer → layerSym layer → (∀ v ∈ layer, v.parent = none) →
    ∀ l ∈ buildStack layer, layerSym l := by
  intro n
  induction n with
  | zero =>
    intro layer hlen hadj hsym hpar l hl
    have hstop : (subsample_octtree layer).length = layer.length := by
      have := subsample_len_le layer
      omega
    rw [buildStack, dif_pos hstop] at hl
    rw [List.mem_singleton.mp hl]
    exact hsym
  | succ n ih =>
    intro layer hlen hadj hsym hpar l hl
    rw [buildStack] at hl
    by_cases hstop : (subsample_octtree layer).length = layer.length
    · rw [dif_pos hstop] at hl
      rw [List.mem_singleton.mp hl]
      exact hsym
    · rw [dif_neg hstop] at hl
      rcases List.mem_cons.mp hl with rfl | hl
      · exact hsym
      · exact ih (subsample_octtree layer)
          (by have := subsample_len_le layer; omega)
          (subsample_adj hadj hsym hpar) (subsample_sym hadj hsym hpar)
          (subsample_parent_none hadj hsym hpar) l hl

/-- C7: neighbour symmetry at every layer of the vertex stack — in the leaf
layer built by `generate_leaf_vertices` and in every coarser layer produced by
`subsample_octtree` — if `u` appears in `v.neighbors[2k+b]` then `v` appears in
`u.neighbors[2k+(1-b)]`.  The two hypotheses state the source's own runtime
invariants of the leaf build: every neighbour reference names a key that is
itself materialised (the source unwraps the `index_map` lookup and would panic
otherwise), and every materialised key's edge-set is listed in the cell's
`CELL_CONFIGS` entry (`get_connected_edges` panics otherwise). -/
theorem neighbour_symmetry (c : Ctx) (vg : VGrid) (eg : EGrid)
    (hMat : ∀ key ∈ leafKeys c vg eg, ∀ f : Fin 6, ∀ k ∈ mkLeafNbrs c vg key f,
      k ∈ leafKeys c vg eg)
    (hSets : ∀ key ∈ leafKeys c vg eg,
      key.edges ∈ c.cellConfigs (bitset_for_cell vg key.index)) :
    ∀ l ∈ buildStack (generate_leaf_vertices c vg eg), layerSym l :=
  buildStack_sym (generate_leaf_vertices c vg eg).length _ (le_refl _)
    (leaf_adj hMat) (leaf_sym hMat hSets) (leaf_parent_none c vg eg)

/-- Witness for C7 on the empty edge grid: the (empty) leaf layer of the stack
is symmetric; both hypotheses hold vacuously. -/
theorem neighbour_symmetry_witness :
    layerSym (generate_leaf_vertices ctxW [] []) := by
  apply neighbour_symmetry ctxW [] []
    (by intro k2 hk2; simp [leafKeys] at hk2)
    (by intro k2 hk2; simp [leafKeys] at hk2)
    (generate_leaf_vertices ctxW [] [])
  rw [buildStack]
  split
  · exact List.mem_singleton.mpr rfl
  · exact List.mem_cons_self _ _
